import Mathlib

/-!
Verification development for `xkcd.go`.

A shallow embedding of the indexed query engine of `src/xkcd.go`:

* the record type `comicData` and the coupled slice that `createIndex` sorts,
* the four `sort.Interface` implementations (`byMonth`, `byNum`, `byYear`, `byTitle`),
* `createIndex`, `loadIndex`, `findIndex` and the loop body of `awaitInput`.

Conventions of the embedding.

* Go `string` values are Lean `String`s.  Go compares strings byte-wise on their UTF-8 encoding;
  UTF-8 preserves code-point order, so the comparison is modelled code point by code point
  (`strLt`).  `json.Number` is a defined string type, its `<`, `>=`, `==` are the string ones.
* Go `int` values that are data (`Num`, the entries of an index) are `Int`; loop counters and
  slice positions are `Nat`.  No arithmetic is done on data, only comparisons.
* A Go panic is the `error` branch of `Except Panic`.
* Slices are lists; the global `comicsData` and the local `coupledSlice.SortBy` share one backing
  array in the source, which the embedding renders by returning the final `SortBy` as the new
  value of the global.
* Library routines are modelled from their documentation: `strconv.Atoi`, `sort.Search`,
  `strings.Fields`, `bufio.ScanLines`, and the `%d` verb.  `sort.Sort` is a parameter: any
  routine that acts on the data through `Less` and `Swap` only (`SortProg`).
-/

namespace Xkcd

/-! ## Data model -/

/-- The record `comicData` (source lines 17-29).  `Month`, `Year`, `Day` are `json.Number`,
that is, strings. -/
structure comicData where
  Month : String
  Num : Int
  Link : String
  Year : String
  News : String
  SafeTitle : String
  Transcript : String
  Alt : String
  Image : String
  Title : String
  Day : String
deriving DecidableEq, Repr

/-- The zero value `comicData{}` of the record type. -/
def comicData.zero : comicData :=
  { Month := "", Num := 0, Link := "", Year := "", News := "", SafeTitle := "",
    Transcript := "", Alt := "", Image := "", Title := "", Day := "" }

/-- The two errors of `strconv`: the text is not a number, or the number does not fit. -/
inductive NumError where
  | invalid
  | outOfRange
deriving DecidableEq, Repr

/-- The run-time panics the modelled code can raise: a slice access out of range, and
`panic(err)` on the error of `strconv.Atoi`. -/
inductive Panic where
  | indexOutOfRange
  | atoi (input : String) (err : NumError)
deriving DecidableEq, Repr

instance instDecidableEqExcept {ε α : Type} [DecidableEq ε] [DecidableEq α] :
    DecidableEq (Except ε α)
  | .ok a, .ok b =>
    if h : a = b then isTrue (by rw [h]) else isFalse (by intro h2; cases h2; exact h rfl)
  | .error a, .error b =>
    if h : a = b then isTrue (by rw [h]) else isFalse (by intro h2; cases h2; exact h rfl)
  | .ok _, .error _ => isFalse (by intro h; cases h)
  | .error _, .ok _ => isFalse (by intro h; cases h)

/-- Read `s[i]` for a Go `int` index: `none` stands for the index-out-of-range panic. -/
def sliceGet? {α : Type} (s : List α) (i : Int) : Option α :=
  if i < 0 then none else s[i.toNat]?

/-- Read `s[i]` at a slice position, panicking when it is out of range. -/
def sliceAt {α : Type} (s : List α) (i : Nat) : Except Panic α :=
  match s[i]? with
  | some a => .ok a
  | none => .error .indexOutOfRange

/-- Read `s[i]` for a Go `int` index, panicking when it is out of range. -/
def sliceGet {α : Type} (s : List α) (i : Int) : Except Panic α :=
  match sliceGet? s i with
  | some a => .ok a
  | none => .error .indexOutOfRange

/-! ## String comparison -/

/-- Lexicographic `<` on code-point sequences. -/
def ltChars : List Char → List Char → Bool
  | [], [] => false
  | [], _ :: _ => true
  | _ :: _, [] => false
  | a :: as, b :: bs =>
    if a.toNat < b.toNat then true
    else if b.toNat < a.toNat then false
    else ltChars as bs

/-- Go `a < b` on strings. -/
def strLt (a b : String) : Bool := ltChars a.data b.data

/-- Go `a > b` on strings. -/
def strGt (a b : String) : Bool := strLt b a

/-- Go `a >= b` on strings. -/
def strGe (a b : String) : Bool := !strLt a b

/-- Go `a <= b` on strings. -/
def strLe (a b : String) : Bool := !strLt b a

/-! ## The coupled slice and its four `sort.Interface` implementations -/

/-- The struct `coupledSlice` (source lines 370-373). -/
structure coupledSlice where
  SortBy : List comicData
  ToSort : List Int
deriving DecidableEq, Repr

/-- The methods of `sort.Interface`, over a state of type `σ`. -/
structure Interface (σ : Type) where
  Len : σ → Nat
  Less : σ → Nat → Nat → Except Panic Bool
  Swap : σ → Nat → Nat → Except Panic σ

/-- The method `Len` of all four types: `len(slices.SortBy)` (source lines 380-394). -/
def coupledSlice.Len (slices : coupledSlice) : Nat := slices.SortBy.length

/-- The method `byMonth.Less` (source lines 396-401). -/
def byMonth.Less (slices : coupledSlice) (i j : Nat) : Except Panic Bool :=
  match slices.SortBy[i]?, slices.SortBy[j]? with
  | some a, some b =>
    if a.Month = b.Month then .ok (decide (a.Num < b.Num))
    else .ok (strLt a.Month b.Month)
  | _, _ => .error .indexOutOfRange

/-- The method `byNum.Less` (source lines 403-405). -/
def byNum.Less (slices : coupledSlice) (i j : Nat) : Except Panic Bool :=
  match slices.SortBy[i]?, slices.SortBy[j]? with
  | some a, some b => .ok (decide (a.Num < b.Num))
  | _, _ => .error .indexOutOfRange

/-- The method `byYear.Less` (source lines 407-412). -/
def byYear.Less (slices : coupledSlice) (i j : Nat) : Except Panic Bool :=
  match slices.SortBy[i]?, slices.SortBy[j]? with
  | some a, some b =>
    if a.Year = b.Year then .ok (decide (a.Num < b.Num))
    else .ok (strLt a.Year b.Year)
  | _, _ => .error .indexOutOfRange

/-- The method `byTitle.Less` (source lines 414-416). -/
def byTitle.Less (slices : coupledSlice) (i j : Nat) : Except Panic Bool :=
  match slices.SortBy[i]?, slices.SortBy[j]? with
  | some a, some b => .ok (strLt a.Title b.Title)
  | _, _ => .error .indexOutOfRange

/-- The method `Swap`, the same text for all four types (source lines 418-436): exchange the
entries `i` and `j` of `SortBy`, then of `ToSort`. -/
def coupledSlice.Swap (slices : coupledSlice) (i j : Nat) : Except Panic coupledSlice :=
  match slices.SortBy[i]?, slices.SortBy[j]? with
  | some a, some b =>
    match slices.ToSort[i]?, slices.ToSort[j]? with
    | some p, some q =>
      .ok { SortBy := (slices.SortBy.set i b).set j a, ToSort := (slices.ToSort.set i q).set j p }
    | _, _ => .error .indexOutOfRange
  | _, _ => .error .indexOutOfRange

/-- The type `byMonth` as a `sort.Interface`. -/
def byMonth : Interface coupledSlice :=
  { Len := coupledSlice.Len, Less := byMonth.Less, Swap := coupledSlice.Swap }

/-- The type `byNum` as a `sort.Interface`. -/
def byNum : Interface coupledSlice :=
  { Len := coupledSlice.Len, Less := byNum.Less, Swap := coupledSlice.Swap }

/-- The type `byYear` as a `sort.Interface`. -/
def byYear : Interface coupledSlice :=
  { Len := coupledSlice.Len, Less := byYear.Less, Swap := coupledSlice.Swap }

/-- The type `byTitle` as a `sort.Interface`. -/
def byTitle : Interface coupledSlice :=
  { Len := coupledSlice.Len, Less := byTitle.Less, Swap := coupledSlice.Swap }

/-! ## `sort.Sort` as a client of the interface -/

/-- A sorting routine seen from the data it sorts: it asks `Less(i, j)` and goes on according
to the answer, or performs `Swap(i, j)`, or stops. -/
inductive SortProg where
  | done : SortProg
  | less : Nat → Nat → (Bool → SortProg) → SortProg
  | swap : Nat → Nat → SortProg → SortProg

/-- Run a sorting routine against an interface. -/
def SortProg.run {σ : Type} (data : Interface σ) : SortProg → σ → Except Panic σ
  | .done, s => .ok s
  | .less i j k, s =>
    match data.Less s i j with
    | .ok b => (k b).run data s
    | .error e => .error e
  | .swap i j rest, s =>
    match data.Swap s i j with
    | .ok t => rest.run data t
    | .error e => .error e

/-- The call `sort.Sort(data)`: the routine reads `data.Len()` once and then works through
`Less` and `Swap`. -/
def sortSort {σ : Type} (alg : Nat → SortProg) (data : Interface σ) (s : σ) : Except Panic σ :=
  (alg (data.Len s)).run data s

/-- The inner loop of the library routine `insertionSort`:
`for j := i; j > a && data.Less(j, j-1); j-- { data.Swap(j, j-1) }`, followed by `rest`. -/
def insertionInner (a : Nat) : Nat → SortProg → SortProg
  | 0, rest => rest
  | j + 1, rest =>
    if a < j + 1 then
      .less (j + 1) j (fun b => if b then .swap (j + 1) j (insertionInner a j rest) else rest)
    else rest

/-- The outer loop of `insertionSort`, `for i := ...; i < b; i++`, with `count` rounds left. -/
def insertionOuter (a : Nat) : Nat → Nat → SortProg
  | _, 0 => .done
  | i, count + 1 => insertionInner a i (insertionOuter a (i + 1) count)

/-- The library routine `insertionSort(data, a, b)`. -/
def insertionSort (a b : Nat) : SortProg := insertionOuter a (a + 1) (b - (a + 1))

/-- What `sort.Sort` runs on a slice of at most six elements (in every release of the
library: the quicksort releases add a gap-6 shell pass, empty below seven elements, and the
pattern-defeating releases call `insertionSort` directly up to twelve elements). -/
def smallSort (n : Nat) : SortProg := insertionSort 0 n

/-- The postcondition of `sort.Sort`: the data is in ascending order as determined by `Less`,
no later element is less than an earlier one. -/
def SortedBy {σ : Type} (data : Interface σ) (s : σ) : Prop :=
  ∀ j, j < data.Len s → ∀ i, i < j → data.Less s j i = .ok false

instance {σ : Type} (data : Interface σ) (s : σ) : Decidable (SortedBy data s) := by
  unfold SortedBy; infer_instance

/-! ## Decimal text: the `%d` verb and `strconv.Atoi` -/

/-- The character of a decimal digit. -/
def digitChar (d : Nat) : Char := Char.ofNat (48 + d)

/-- The digits of `n`, most significant first, pushed in front of `acc`: the division loop of
the library formatter.  The bound `n ≤ fuel` makes the recursion structural; at `fuel = 0` the
number is `0`. -/
def formatBits : (fuel n : Nat) → n ≤ fuel → List Char → List Char
  | 0, _, _, acc => digitChar 0 :: acc
  | fuel + 1, n, _, acc =>
    if n < 10 then digitChar n :: acc
    else formatBits fuel (n / 10) (by omega) (digitChar (n % 10) :: acc)

/-- The decimal text of a natural number. -/
def formatNat (n : Nat) : List Char := formatBits n n (Nat.le_refl n) []

/-- The text `fmt` produces for an `int` under the verb `%d`. -/
def formatInt (z : Int) : String :=
  if z < 0 then String.mk ('-' :: formatNat z.natAbs) else String.mk (formatNat z.natAbs)

/-- The largest `uint64`. -/
def maxUint64 : Nat := 2 ^ 64 - 1

/-- The digit loop of `strconv.ParseUint(s, 10, 64)`: a byte that is not a decimal digit is a
syntax error, a value beyond `uint64` a range error, whichever comes first. -/
def parseUintLoop : List Char → Nat → Except NumError Nat
  | [], n => .ok n
  | c :: cs, n =>
    if 48 ≤ c.toNat ∧ c.toNat ≤ 57 then
      if maxUint64 / 10 + 1 ≤ n then .error .outOfRange
      else if maxUint64 < n * 10 + (c.toNat - 48) then .error .outOfRange
      else parseUintLoop cs (n * 10 + (c.toNat - 48))
    else .error .invalid

/-- The library routine `strconv.ParseUint(s, 10, 64)`. -/
def parseUint (s : List Char) : Except NumError Nat :=
  match s with
  | [] => .error .invalid
  | c :: cs => parseUintLoop (c :: cs) 0

/-- The library routine `strconv.Atoi` for a 64-bit `int`, that is `ParseInt(s, 10, 0)`: an
optional sign, then decimal digits, within `[-2^63, 2^63)`. -/
def Atoi (s : String) : Except NumError Int :=
  match s.data with
  | [] => .error .invalid
  | c :: cs =>
    let neg : Bool := decide (c = '-')
    let digits := if c = '+' ∨ c = '-' then cs else c :: cs
    match parseUint digits with
    | .error e => .error e
    | .ok un =>
      if neg = false ∧ 2 ^ 63 ≤ un then .error .outOfRange
      else if neg = true ∧ 2 ^ 63 < un then .error .outOfRange
      else .ok (if neg then - (un : Int) else (un : Int))

/-! ## `createIndex` -/

/-- What one call of `createIndex` leaves behind: the global `comicsData`, the name and the text
of the file it wrote, and the position sequence that text lists. -/
structure IndexBuild where
  comicsData : List comicData
  fileName : String
  positions : List Int
  fileText : String
deriving DecidableEq, Repr

/-- The text written by `for _, location := range coupledSlice.ToSort { fmt.Fprintf(file,
"%d\n", location) }` (source lines 224-226). -/
def writeIndex (toSort : List Int) : String :=
  String.join (toSort.map fun location => formatInt location ++ "\n")

/-- The slice `toSort` after the loop `toSort[i] = i` (source lines 196-199). -/
def initialToSort (numComics : Nat) : List Int := (List.range numComics).map Int.ofNat

/-- The switch on `sortBy` (source lines 206-215): the interface value handed to `sort.Sort`,
`none` when no case applies. -/
def interfaceOf (sortBy : String) : Option (Interface coupledSlice) :=
  match sortBy with
  | "month" => some byMonth
  | "num" => some byNum
  | "year" => some byYear
  | "title" => some byTitle
  | _ => none

/-- The coupled slice built at source lines 195-204: `SortBy` is the global `comicsData`
itself, `ToSort` the fresh `toSort`. -/
def initialSlices (numComics : Nat) (comicsData : List comicData) : coupledSlice :=
  { SortBy := comicsData, ToSort := initialToSort numComics }

/-- The sorting part of `createIndex` (source lines 195-215); a `sortBy` outside the four keys
sorts nothing. -/
def createIndexSort (alg : Nat → SortProg) (numComics : Nat) (comicsData : List comicData)
    (sortBy : String) : Except Panic coupledSlice :=
  match interfaceOf sortBy with
  | some data => sortSort alg data (initialSlices numComics comicsData)
  | none => .ok (initialSlices numComics comicsData)

/-- The function `createIndex` (source lines 194-227), with `sort.Sort` given by `alg`.  The
file system is outside the model: `os.Create` is taken to succeed, and the file is the text
written to it. -/
def createIndex (alg : Nat → SortProg) (numComics : Nat) (comicsData : List comicData)
    (sortBy : String) : Except Panic IndexBuild :=
  match createIndexSort alg numComics comicsData sortBy with
  | .error e => .error e
  | .ok slices =>
    .ok { comicsData := slices.SortBy
          fileName := sortBy ++ "_index"
          positions := slices.ToSort
          fileText := writeIndex slices.ToSort }

/-! ## `loadIndex` -/

/-- The helper `dropCR` of `bufio`: drop one trailing carriage return. -/
def dropCR (line : List Char) : List Char :=
  if line.getLast? = some '\r' then line.dropLast else line

/-- The number of bytes of the UTF-8 encoding. -/
def byteLen (cs : List Char) : Nat := (cs.map Char.utf8Size).sum

/-- The constant `bufio.MaxScanTokenSize`. -/
def maxScanTokenSize : Nat := 64 * 1024

/-- The tokens `scanner.Scan()` delivers with the default split function `ScanLines`: the
lines of the text without their end-of-line marker; a last line need not be terminated; a line
of `maxScanTokenSize` bytes or more ends the scan.  `cur` is the current line, reversed. -/
def scanLinesAux : List Char → List Char → List String
  | [], cur =>
    if cur = [] then [] else if maxScanTokenSize ≤ byteLen cur then []
    else [String.mk (dropCR cur.reverse)]
  | c :: cs, cur =>
    if c = '\n' then
      if maxScanTokenSize ≤ byteLen cur then []
      else String.mk (dropCR cur.reverse) :: scanLinesAux cs []
    else scanLinesAux cs (c :: cur)

/-- The sequence of `scanner.Text()` values over a text. -/
def scanLines (text : String) : List String := scanLinesAux text.data []

/-- The loop of `loadIndex` (source lines 239-247): parse each line and store it at the next
slot of `index`. -/
def loadIndexLoop : List String → Nat → List Int → Except Panic (List Int)
  | [], _, index => .ok index
  | line :: rest, i, index =>
    match Atoi line with
    | .error e => .error (.atoi line e)
    | .ok location =>
      if i < index.length then loadIndexLoop rest (i + 1) (index.set i location)
      else .error .indexOutOfRange

/-- The function `loadIndex` (source lines 230-248) on the text of the file `key_index`, which
`os.Open` is taken to find; `index` is the caller's slice, returned with the loaded entries. -/
def loadIndex (fileText : String) (index : List Int) : Except Panic (List Int) :=
  loadIndexLoop (scanLines fileText) 0 index

/-! ## `findIndex` -/

/-- The loop of the library routine `sort.Search`: `for i < j { h := (i+j)/2; if !f(h) { i = h
+ 1 } else { j = h } }; return i`.  The bound `j - i ≤ fuel` makes the recursion structural; at
`fuel = 0` the loop condition `i < j` is false. -/
def searchLoop (f : Nat → Except Panic Bool) :
    (fuel i j : Nat) → j - i ≤ fuel → Except Panic Nat
  | 0, i, _, _ => .ok i
  | fuel + 1, i, j, _ =>
    if i < j then
      match f ((i + j) / 2) with
      | .error e => .error e
      | .ok false => searchLoop f fuel ((i + j) / 2 + 1) j (by omega)
      | .ok true => searchLoop f fuel i ((i + j) / 2) (by omega)
    else .ok i

/-- The library routine `sort.Search(n, f)`. -/
def Search (n : Nat) (f : Nat → Except Panic Bool) : Except Panic Nat :=
  searchLoop f n 0 n (by omega)

/-- The expression `comicsData[indexToUse[i]]`. -/
def recordAt (comicsData : List comicData) (indexToUse : List Int) (i : Nat) :
    Except Panic comicData :=
  match sliceAt indexToUse i with
  | .error e => .error e
  | .ok location => sliceGet comicsData location

/-- A closure `func(i int) bool { return test(comicsData[indexToUse[i]]) }`. -/
def probe (comicsData : List comicData) (indexToUse : List Int) (test : comicData → Bool)
    (i : Nat) : Except Panic Bool :=
  match recordAt comicsData indexToUse i with
  | .error e => .error e
  | .ok r => .ok (test r)

/-- The function `findIndex` (source lines 153-191).  The parameter `inequality` is not read by
the body; a key outside the four leaves `index` at its zero value. -/
def findIndex (numComics : Nat) (comicsData : List comicData) (indexToUse : List Int)
    (key : String) (_inequality : String) (value : String) (isLeftBound : Bool) :
    Except Panic Nat :=
  match key with
  | "month" =>
    if isLeftBound then
      Search numComics (probe comicsData indexToUse fun r => strGe r.Month value)
    else
      Search numComics (probe comicsData indexToUse fun r => strGt r.Month value)
  | "num" =>
    match Atoi value with
    | .error err => .error (.atoi value err)
    | .ok v =>
      if isLeftBound then
        Search numComics (probe comicsData indexToUse fun r => decide (r.Num ≥ v))
      else
        Search numComics (probe comicsData indexToUse fun r => decide (r.Num > v))
  | "year" =>
    if isLeftBound then
      Search numComics (probe comicsData indexToUse fun r => strGe r.Year value)
    else
      Search numComics (probe comicsData indexToUse fun r => strGt r.Year value)
  | "title" =>
    if isLeftBound then
      Search numComics (probe comicsData indexToUse fun r => strGe r.Title value)
    else
      Search numComics (probe comicsData indexToUse fun r => strGt r.Title value)
  | _ => .ok 0

/-! ## The loop body of `awaitInput` -/

/-- The global variables a search session reads (source lines 31-37). -/
structure Globals where
  numComics : Nat
  comicsData : List comicData
  monthIndex : List Int
  numIndex : List Int
  yearIndex : List Int
  titleIndex : List Int
deriving DecidableEq, Repr

/-- One item written to standard output: a text, or a record given to `fmt.Println`. -/
inductive Output where
  | text (s : String)
  | record (r : comicData)
deriving DecidableEq, Repr

/-- The library predicate `unicode.IsSpace`. -/
def isSpace (c : Char) : Bool :=
  let n := c.toNat
  (9 ≤ n ∧ n ≤ 13) ∨ n = 0x20 ∨ n = 0x85 ∨ n = 0xA0 ∨ n = 0x1680 ∨ (0x2000 ≤ n ∧ n ≤ 0x200A) ∨
    n = 0x2028 ∨ n = 0x2029 ∨ n = 0x202F ∨ n = 0x205F ∨ n = 0x3000

/-- The words of a text: `cur` is the current word, reversed. -/
def fieldsAux : List Char → List Char → List String
  | [], cur => if cur = [] then [] else [String.mk cur.reverse]
  | c :: cs, cur =>
    if isSpace c then
      if cur = [] then fieldsAux cs [] else String.mk cur.reverse :: fieldsAux cs []
    else fieldsAux cs (c :: cur)

/-- The library routine `strings.Fields`. -/
def Fields (s : String) : List String := fieldsAux s.data []

/-- The value of a query: the words `args[2:]` joined by single blanks (source lines 76-83). -/
def joinValue : List String → String
  | [] => ""
  | [word] => word
  | word :: rest => word ++ " " ++ joinValue rest

/-- The switch on `key` (source lines 86-100): the index to use, `none` for an invalid key. -/
def selectIndex (g : Globals) (key : String) : Option (List Int) :=
  match key with
  | "month" => some g.monthIndex
  | "num" => some g.numIndex
  | "year" => some g.yearIndex
  | "title" => some g.titleIndex
  | _ => none

/-- The switch on `inequality` (source lines 102-117): the bounds `[leftBound, rightBound)`,
`none` for an invalid operand. -/
def queryBounds (numComics : Nat) (comicsData : List comicData) (indexToUse : List Int)
    (key inequality value : String) : Except Panic (Option (Nat × Nat)) :=
  match inequality with
  | "<=" =>
    match findIndex numComics comicsData indexToUse key inequality value false with
    | .error e => .error e
    | .ok rightBound => .ok (some (0, rightBound))
  | ">=" =>
    match findIndex numComics comicsData indexToUse key inequality value true with
    | .error e => .error e
    | .ok leftBound => .ok (some (leftBound, numComics))
  | "=" =>
    match findIndex numComics comicsData indexToUse key inequality value false with
    | .error e => .error e
    | .ok rightBound =>
      match findIndex numComics comicsData indexToUse key inequality value true with
      | .error e => .error e
      | .ok leftBound => .ok (some (leftBound, rightBound))
  | _ => .ok none

/-- The print loop `for i := leftBound; i < rightBound; i++ { fmt.Println(comicsData[
indexToUse[i]]) }` (source lines 120-122), with `count` rounds left. -/
def printRange (comicsData : List comicData) (indexToUse : List Int) :
    Nat → Nat → Except Panic (List Output)
  | _, 0 => .ok []
  | i, count + 1 =>
    match recordAt comicsData indexToUse i with
    | .error e => .error e
    | .ok r =>
      match printRange comicsData indexToUse (i + 1) count with
      | .error e => .error e
      | .ok out => .ok (.record r :: out)

/-- One round of the loop of `awaitInput` (source lines 71-127) on the line `scanner.Text()`:
the output of the round, or the panic that ends the program. -/
def awaitInputStep (g : Globals) (line : String) : Except Panic (List Output) :=
  match Fields line with
  | [] => .error .indexOutOfRange
  | [_] => .error .indexOutOfRange
  | key :: inequality :: words =>
    let value := joinValue words
    match selectIndex g key with
    | none => .ok [.text "Error: invalid key specified.\n", .text "> "]
    | some indexToUse =>
      match queryBounds g.numComics g.comicsData indexToUse key inequality value with
      | .error e => .error e
      | .ok none => .ok [.text "Error: invalid operand specified.\n", .text "> "]
      | .ok (some (leftBound, rightBound)) =>
        match printRange g.comicsData indexToUse leftBound (rightBound - leftBound) with
        | .error e => .error e
        | .ok out =>
          .ok (out ++ (if leftBound ≥ rightBound then
            [.text "No comics satisfy your search criteria\n"] else []) ++ [.text "> "])

/-! ## Vocabulary of the properties -/

/-- The four keys of the query engine. -/
def keys : List String := ["month", "num", "year", "title"]

/-- The call of `sort.Sort` that `createIndex(sortBy)` makes on the store honours the
documentation of `sort.Sort`: it returns, and the data is then in ascending order as determined
by `Less`. -/
def SortSpec (alg : Nat → SortProg) (comicsData : List comicData) (sortBy : String) : Prop :=
  ∀ data, interfaceOf sortBy = some data →
    ∃ c, sortSort alg data (initialSlices comicsData.length comicsData) = .ok c ∧ SortedBy data c

/-- The order of two records in the field of a key, `field(a) <= field(b)`, as the comparators
of the index builder and of `findIndex` read it: byte-wise on the text of `Month`, `Year` and
`Title`, numeric on `Num`. -/
def fieldLE (key : String) (a b : comicData) : Bool :=
  match key with
  | "month" => strLe a.Month b.Month
  | "num" => decide (a.Num ≤ b.Num)
  | "year" => strLe a.Year b.Year
  | "title" => strLe a.Title b.Title
  | _ => false

/-- The predicate `field operator value` of a query on a record, in the same orderings; for
`num` the value is read by `Atoi`.  Next to the three operators of a query, `>` is given a
meaning too: it is the test of the right bound. -/
def satisfies (key inequality value : String) (r : comicData) : Bool :=
  let text (field : String) : Bool :=
    match inequality with
    | ">=" => strGe field value
    | "<=" => strLe field value
    | "=" => decide (field = value)
    | ">" => strGt field value
    | _ => false
  match key with
  | "month" => text r.Month
  | "num" =>
    match Atoi value with
    | .error _ => false
    | .ok v =>
      match inequality with
      | ">=" => decide (r.Num ≥ v)
      | "<=" => decide (r.Num ≤ v)
      | "=" => decide (r.Num = v)
      | ">" => decide (r.Num > v)
      | _ => false
  | "year" => text r.Year
  | "title" => text r.Title
  | _ => false

/-- The text of the field of a key (`month`, `year`, `title`). -/
def fieldText (key : String) (r : comicData) : String :=
  match key with
  | "month" => r.Month
  | "year" => r.Year
  | "title" => r.Title
  | _ => ""

/-- The comparison that `Less` of the interface of a key makes on two records. -/
def lessRecord (key : String) (a b : comicData) : Bool :=
  match key with
  | "month" => if a.Month = b.Month then decide (a.Num < b.Num) else strLt a.Month b.Month
  | "num" => decide (a.Num < b.Num)
  | "year" => if a.Year = b.Year then decide (a.Num < b.Num) else strLt a.Year b.Year
  | "title" => strLt a.Title b.Title
  | _ => false

/-- The lockstep invariant of the coupled sort over a store `S`: every entry of `SortBy` is the
record of `S` that the entry of `ToSort` at the same place points to, and `ToSort` is a
permutation of the positions of `S`. -/
def Lockstep (S : List comicData) (c : coupledSlice) : Prop :=
  c.SortBy.map some = c.ToSort.map (sliceGet? S) ∧ c.ToSort.Perm (initialToSort S.length)

/-- A record with the given number, month, year and title, all other fields empty. -/
def mkComic (num : Int) (month year title : String) : comicData :=
  { comicData.zero with Num := num, Month := month, Year := year, Title := title }

/-- A store of three records whose months are not in ascending order. -/
def sampleStore : List comicData :=
  [mkComic 1 "9" "2006" "beta", mkComic 2 "10" "2006" "alpha", mkComic 3 "9" "2007" "gamma"]

/-- The store of the scenario of the specification: numbers 1, 2, 3 of the years 2006, 2006,
2007. -/
def scenarioStore : List comicData :=
  [mkComic 1 "" "2006" "", mkComic 2 "" "2006" "", mkComic 3 "" "2007" ""]

/-- The ordering of an index by the integer value of the field of a key: whenever the field of
one record, read as a decimal integer, is smaller than the field of another, the first record
stands earlier in the index. -/
def NumericOrder (key : String) (S : List comicData) (P : List Int) : Prop :=
  ∀ i j a b x y, recordAt S P i = .ok a → recordAt S P j = .ok b →
    Atoi (fieldText key a) = .ok x → Atoi (fieldText key b) = .ok y → x < y → i < j

/-- The records that an index resolves to in a store are non-decreasing in the field of a key:
the precondition of the binary search. -/
def IndexSorted (key : String) (S : List comicData) (index : List Int) : Prop :=
  ∀ i j a b, i < j → recordAt S index i = .ok a → recordAt S index j = .ok b →
    fieldLE key a b = true

/-- The records at two places of an index are in order, or one of them does not resolve. -/
def pairInOrder (key : String) (S : List comicData) (index : List Int) (i j : Nat) : Bool :=
  match recordAt S index i, recordAt S index j with
  | .ok a, .ok b => fieldLE key a b
  | _, _ => true

/-- The condition `IndexSorted` as a check that can be run. -/
def indexSortedCheck (key : String) (S : List comicData) (index : List Int) : Bool :=
  decide (∀ j, j < index.length → ∀ i, i < j → pairInOrder key S index i j = true)

/-- A character is a decimal digit. -/
def IsDigit (c : Char) : Prop := 48 ≤ c.toNat ∧ c.toNat ≤ 57

/-- The records at two places of a store are in strictly ascending order of the comparison of a
key, or one of the places is outside the store. -/
def pairAscending (key : String) (S : List comicData) (i j : Nat) : Bool :=
  match S[i]?, S[j]? with
  | some a, some b => lessRecord key a b
  | _, _ => true

/-- A store is in strictly ascending order of the comparison of a key. -/
def storeAscending (key : String) (S : List comicData) : Bool :=
  decide (∀ j, j < S.length → ∀ i, i < j → pairAscending key S i j = true)

/-- Every place below `n` of an index resolves to a record of the store: the index has at least
`n` entries and the first `n` are positions of the store. -/
def ReadableIndex (n : Nat) (S : List comicData) (index : List Int) : Prop :=
  ∀ i, i < n → (recordAt S index i).toBool = true

instance (n : Nat) (S : List comicData) (index : List Int) : Decidable (ReadableIndex n S index) := by
  unfold ReadableIndex; infer_instance

/-- The state of the globals after a successful start of a search session, as far as the loop
of `awaitInput` depends on it: each of the four indices resolves at every place below
`numComics`. -/
def Globals.Loaded (g : Globals) : Prop :=
  ReadableIndex g.numComics g.comicsData g.monthIndex ∧
  ReadableIndex g.numComics g.comicsData g.numIndex ∧
  ReadableIndex g.numComics g.comicsData g.yearIndex ∧
  ReadableIndex g.numComics g.comicsData g.titleIndex

instance (g : Globals) : Decidable g.Loaded := by
  unfold Globals.Loaded; infer_instance

/-- The three operands of a query. -/
def operands : List String := [">=", "<=", "="]

/-- The globals of a session over the sample store, with the indices built from it. -/
def sampleGlobals : Globals :=
  { numComics := 3, comicsData := sampleStore, monthIndex := [1, 0, 2], numIndex := [0, 1, 2],
    yearIndex := [0, 1, 2], titleIndex := [1, 0, 2] }

/-- The pair that the comparison of a key orders lexicographically: the text of the field and
the number for `month` and `year`, the number alone for `num`, the title alone for `title`. -/
def sortKey (key : String) (r : comicData) : Lex (String × Int) :=
  match key with
  | "month" => toLex (r.Month, r.Num)
  | "num" => toLex ("", r.Num)
  | "year" => toLex (r.Year, r.Num)
  | "title" => toLex (r.Title, 0)
  | _ => toLex ("", 0)

/-- The sort key of the record at place `p` of `SortBy`. -/
def keyAt (key : String) (c : coupledSlice) (p : Nat) : Lex (String × Int) :=
  sortKey key (c.SortBy.getD p comicData.zero)

/-- The first `i` places of `SortBy` are in ascending order of the sort key. -/
def PrefixSorted (key : String) (c : coupledSlice) (i : Nat) : Prop :=
  ∀ p q, p < q → q < i → keyAt key c p ≤ keyAt key c q

/-- The invariant of the inner loop of `insertionSort`: the places up to `i` are in ascending
order when place `j` is left out, and the record at `j` is not above any later one. -/
def Gap (key : String) (c : coupledSlice) (j i : Nat) : Prop :=
  (∀ p q, p < q → q ≤ i → p ≠ j → q ≠ j → keyAt key c p ≤ keyAt key c q) ∧
  (∀ q, j < q → q ≤ i → keyAt key c j ≤ keyAt key c q)

/-- The records that the loop of `downloadComicsData` (source lines 286-299) encodes, in order:
the record of comic `i` for `i = 1, ..., numComics`, with the empty record `comicData{}` for
`i == 404`.  `fetch i` stands for the record that the query of comic `i` returns (source lines
303-318). -/
def downloadComicsData (fetch : Nat → comicData) (numComics : Nat) : List comicData :=
  (List.range numComics).map fun k => if k + 1 = 404 then comicData.zero else fetch (k + 1)

/-- A source of records in which comic `i` has the number `i` and nothing else. -/
def plainFetch (i : Nat) : comicData := mkComic i "" "" ""

/-- The number of the record at a position of a store, `0` outside the store. -/
def numAt (S : List comicData) (p : Int) : Int :=
  match sliceGet? S p with
  | some r => r.Num
  | none => 0

/-- The positions of a store of `n` records with position 403 moved to the front. -/
def holeFirst (n : Nat) : List Int :=
  403 :: ((List.range n).filter fun k => k ≠ 403).map Int.ofNat

/-- A source of records in which comic `i` carries the number `i`, as the archive numbers its
comics; the other fields are those of `fetch i`. -/
def numbered (fetch : Nat → comicData) (i : Nat) : comicData :=
  { fetch i with Num := (i : Int) }

/-- The field of a record is strictly below a value, `field < value`, in the ordering of the
comparators: byte-wise on the text of `Month`, `Year` and `Title`, numeric on `Num` (the value
read by `Atoi`). -/
def fieldBelow (key value : String) (r : comicData) : Bool :=
  match key with
  | "month" => strLt r.Month value
  | "num" =>
    match Atoi value with
    | .error _ => false
    | .ok v => decide (r.Num < v)
  | "year" => strLt r.Year value
  | "title" => strLt r.Title value
  | _ => false

/-- A finite sequence of calls `Swap(i, j)` on a coupled slice, one after the other. -/
def swapAll : coupledSlice → List (Nat × Nat) → Except Panic coupledSlice
  | c, [] => .ok c
  | c, (i, j) :: rest =>
    match c.Swap i j with
    | .ok d => swapAll d rest
    | .error e => .error e

/-! ## Auxiliary facts -/

theorem char_lt_iff (a b : Char) : a.toNat < b.toNat ↔ a < b := by
  exact Iff.rfl

theorem char_eq_of_not_lt {a b : Char} (h1 : ¬ a.toNat < b.toNat) (h2 : ¬ b.toNat < a.toNat) : a = b := by
  have h : a.toNat = b.toNat := by omega
  have := congrArg Char.ofNat h
  simpa [Char.ofNat_toNat] using this

theorem ltChars_iff (a b : List Char) : ltChars a b = true ↔ a < b := by
  induction a generalizing b with
  | nil =>
    cases b with
    | nil => simp [ltChars]
    | cons y ys => simp [ltChars]; exact List.Lex.nil
  | cons x xs ih =>
    cases b with
    | nil => simp [ltChars]
    | cons y ys =>
      unfold ltChars
      by_cases h1 : x.toNat < y.toNat
      · simp only [h1, if_true, true_iff]
        exact List.Lex.rel ((char_lt_iff x y).1 h1)
      · by_cases h2 : y.toNat < x.toNat
        · simp only [h1, h2, if_true, if_false]
          constructor
          · intro h; cases h
          · intro h
            have h3 : y < x := (char_lt_iff y x).1 h2
            have : (y :: ys) < (x :: xs) := List.Lex.rel h3
            exact absurd h (lt_asymm this)
        · have hxy : x = y := char_eq_of_not_lt h1 h2
          subst hxy
          simp only [h1, if_false]
          rw [ih ys]
          exact List.Lex.cons_iff.symm

theorem strLt_iff (a b : String) : strLt a b = true ↔ a < b := by
  unfold strLt
  rw [ltChars_iff, String.lt_iff_toList_lt]
  rfl

theorem cons_set_perm {α : Type} (a : α) :
    ∀ (t : List α) (k : Nat) (h : k < t.length), (t[k] :: t.set k a).Perm (a :: t)
  | [], k, h => by simp at h
  | b :: t, 0, _ => by
    simpa using List.Perm.swap a b t
  | b :: t, k + 1, h => by
    have hk : k < t.length := by simpa using h
    have ih := cons_set_perm a t k hk
    simp only [List.getElem_cons_succ, List.set_cons_succ]
    exact ((List.Perm.swap b t[k] (t.set k a)).trans (ih.cons b)).trans (List.Perm.swap a b t)

theorem set_set_perm {α : Type} :
    ∀ (l : List α) (i j : Nat) (hi : i < l.length) (hj : j < l.length),
      ((l.set i l[j]).set j l[i]).Perm l
  | [], i, _, hi, _ => by simp at hi
  | a :: t, 0, 0, _, _ => by simp
  | a :: t, 0, j + 1, _, hj => by
    have hj2 : j < t.length := by simpa using hj
    simpa using cons_set_perm a t j hj2
  | a :: t, i + 1, 0, hi, _ => by
    have hi2 : i < t.length := by simpa using hi
    simpa using cons_set_perm a t i hi2
  | a :: t, i + 1, j + 1, hi, hj => by
    have hi2 : i < t.length := by simpa using hi
    have hj2 : j < t.length := by simpa using hj
    simpa using set_set_perm t i j hi2 hj2

theorem sliceGet?_ofNat {α : Type} (S : List α) (i : Nat) : sliceGet? S (Int.ofNat i) = S[i]? := by
  simp [sliceGet?]

theorem map_getElem?_range {α : Type} (S : List α) :
    (List.range S.length).map (fun i => S[i]?) = S.map some := by
  apply List.ext_getElem?
  intro k
  by_cases hk : k < S.length
  · simp [hk, List.getElem?_eq_getElem]
  · have hk2 : S.length ≤ k := Nat.le_of_not_lt hk
    rw [List.getElem?_eq_none (by simpa using hk2), List.getElem?_eq_none (by simpa using hk2)]

theorem lockstep_initial (S : List comicData) : Lockstep S (initialSlices S.length S) := by
  refine ⟨?_, List.Perm.refl _⟩
  simp only [initialSlices, initialToSort, List.map_map]
  rw [← map_getElem?_range]
  apply List.map_congr_left
  intro i _
  exact (sliceGet?_ofNat S i).symm

theorem lockstep_swap {S : List comicData} {c d : coupledSlice} {i j : Nat}
    (h : Lockstep S c) (hs : c.Swap i j = .ok d) : Lockstep S d := by
  obtain ⟨hmap, hperm⟩ := h
  unfold coupledSlice.Swap at hs
  split at hs
  · rename_i a b ha hb
    split at hs
    · rename_i p q hp hq
      injection hs with hs
      subst hs
      have hi : i < c.ToSort.length := (List.getElem?_eq_some_iff.1 hp).1
      have hj : j < c.ToSort.length := (List.getElem?_eq_some_iff.1 hq).1
      have hpe : c.ToSort[i] = p := (List.getElem?_eq_some_iff.1 hp).2
      have hqe : c.ToSort[j] = q := (List.getElem?_eq_some_iff.1 hq).2
      have hsa : some a = sliceGet? S p := by
        have := congrArg (fun l => l[i]?) hmap
        simp only [List.getElem?_map, ha, hp, Option.map_some'] at this
        exact Option.some.inj this
      have hsb : some b = sliceGet? S q := by
        have := congrArg (fun l => l[j]?) hmap
        simp only [List.getElem?_map, hb, hq, Option.map_some'] at this
        exact Option.some.inj this
      constructor
      · simp only [List.map_set, hmap, hsa, hsb]
      · subst hpe hqe
        exact (set_set_perm c.ToSort i j hi hj).trans hperm
    · cases hs
  · cases hs

theorem lockstep_run {S : List comicData} (data : Interface coupledSlice)
    (hswap : data.Swap = coupledSlice.Swap) :
    ∀ (prog : SortProg) (c d : coupledSlice), Lockstep S c → prog.run data c = .ok d →
      Lockstep S d := by
  intro prog
  induction prog with
  | done =>
    intro c d h hr
    simp only [SortProg.run] at hr
    injection hr with hr
    subst hr
    exact h
  | less i j k ih =>
    intro c d h hr
    simp only [SortProg.run] at hr
    split at hr
    · rename_i b hb
      exact ih b c d h hr
    · cases hr
  | swap i j rest ih =>
    intro c d h hr
    simp only [SortProg.run] at hr
    split at hr
    · rename_i t ht
      rw [hswap] at ht
      exact ih t d (lockstep_swap h ht) hr
    · cases hr

theorem strLt_irrefl (a : String) : strLt a a = false := by
  cases h : strLt a a
  · rfl
  · exact absurd ((strLt_iff a a).1 h) (lt_irrefl a)

theorem lockstep_length_toSort {S : List comicData} {c : coupledSlice} (h : Lockstep S c) :
    c.ToSort.length = S.length := by
  have := h.2.length_eq
  simpa [initialToSort] using this

theorem lockstep_length_sortBy {S : List comicData} {c : coupledSlice} (h : Lockstep S c) :
    c.SortBy.length = S.length := by
  have := congrArg List.length h.1
  simp only [List.length_map] at this
  rw [this, lockstep_length_toSort h]

theorem lockstep_mem {S : List comicData} {c : coupledSlice} (h : Lockstep S c) (p : Int)
    (hp : p ∈ c.ToSort) : 0 ≤ p ∧ p < S.length := by
  have := (h.2.mem_iff).1 hp
  simp only [initialToSort, List.mem_map, List.mem_range] at this
  obtain ⟨k, hk, rfl⟩ := this
  constructor
  · exact Int.ofNat_nonneg k
  · exact Int.ofNat_lt.2 hk

theorem lockstep_recordAt {S : List comicData} {c : coupledSlice} (h : Lockstep S c) (k : Nat)
    (hk : k < S.length) :
    ∃ a, c.SortBy[k]? = some a ∧ recordAt S c.ToSort k = .ok a := by
  have hk1 : k < c.SortBy.length := by rw [lockstep_length_sortBy h]; exact hk
  have hk2 : k < c.ToSort.length := by rw [lockstep_length_toSort h]; exact hk
  refine ⟨c.SortBy[k], List.getElem?_eq_getElem hk1, ?_⟩
  have := congrArg (fun l => l[k]?) h.1
  simp only [List.getElem?_map, List.getElem?_eq_getElem hk1, List.getElem?_eq_getElem hk2,
    Option.map_some'] at this
  have h2 : sliceGet? S c.ToSort[k] = some c.SortBy[k] := (Option.some.inj this).symm
  simp [recordAt, sliceAt, List.getElem?_eq_getElem hk2, sliceGet, h2]

theorem recordAt_lt {S : List comicData} {P : List Int} {k : Nat} {a : comicData}
    (h : recordAt S P k = .ok a) : k < P.length := by
  unfold recordAt sliceAt at h
  by_contra hk
  rw [List.getElem?_eq_none (Nat.le_of_not_lt hk)] at h
  simp at h

theorem interfaceOf_cases {key : String} {data : Interface coupledSlice}
    (hd : interfaceOf key = some data) :
    (key = "month" ∧ data = byMonth) ∨ (key = "num" ∧ data = byNum) ∨
      (key = "year" ∧ data = byYear) ∨ (key = "title" ∧ data = byTitle) := by
  unfold interfaceOf at hd
  split at hd <;> first
    | (injection hd with hd; subst hd; simp)
    | cases hd

theorem interfaceOf_isSome {key : String} (hkey : key ∈ keys) :
    ∃ data, interfaceOf key = some data := by
  simp only [keys, List.mem_cons, List.mem_singleton, List.mem_nil_iff, or_false] at hkey
  rcases hkey with rfl | rfl | rfl | rfl
  · exact ⟨byMonth, rfl⟩
  · exact ⟨byNum, rfl⟩
  · exact ⟨byYear, rfl⟩
  · exact ⟨byTitle, rfl⟩

theorem interfaceOf_swap {key : String} {data : Interface coupledSlice}
    (hd : interfaceOf key = some data) : data.Swap = coupledSlice.Swap := by
  rcases interfaceOf_cases hd with ⟨_, rfl⟩ | ⟨_, rfl⟩ | ⟨_, rfl⟩ | ⟨_, rfl⟩ <;> rfl

theorem interfaceOf_len {key : String} {data : Interface coupledSlice}
    (hd : interfaceOf key = some data) (c : coupledSlice) : data.Len c = c.SortBy.length := by
  rcases interfaceOf_cases hd with ⟨_, rfl⟩ | ⟨_, rfl⟩ | ⟨_, rfl⟩ | ⟨_, rfl⟩ <;> rfl

theorem interfaceOf_less {key : String} {data : Interface coupledSlice}
    (hd : interfaceOf key = some data) (c : coupledSlice) (i j : Nat) (a b : comicData)
    (ha : c.SortBy[i]? = some a) (hb : c.SortBy[j]? = some b) :
    data.Less c i j = .ok (lessRecord key a b) := by
  rcases interfaceOf_cases hd with ⟨rfl, rfl⟩ | ⟨rfl, rfl⟩ | ⟨rfl, rfl⟩ | ⟨rfl, rfl⟩
  · simp only [byMonth, byMonth.Less, ha, hb, lessRecord]
    split <;> rfl
  · simp only [byNum, byNum.Less, ha, hb, lessRecord]
  · simp only [byYear, byYear.Less, ha, hb, lessRecord]
    split <;> rfl
  · simp only [byTitle, byTitle.Less, ha, hb, lessRecord]

/-- What a call of `createIndex` whose sort honours its contract leaves behind. -/
theorem createIndexSort_spec (alg : Nat → SortProg) (S : List comicData) (key : String)
    (hkey : key ∈ keys) (hsort : SortSpec alg S key) :
    ∃ c, createIndexSort alg S.length S key = .ok c ∧ Lockstep S c ∧
      ∀ j, j < S.length → ∀ i, i < j → ∀ a b, c.SortBy[i]? = some a → c.SortBy[j]? = some b →
        lessRecord key b a = false := by
  obtain ⟨data, hd⟩ := interfaceOf_isSome hkey
  obtain ⟨c, hc, hsorted⟩ := hsort data hd
  have hlock : Lockstep S c :=
    lockstep_run data (interfaceOf_swap hd) _ _ _ (lockstep_initial S) hc
  refine ⟨c, ?_, hlock, ?_⟩
  · simp only [createIndexSort, hd]
    exact hc
  · intro j hj i hij a b ha hb
    have hlen : j < data.Len c := by
      rw [interfaceOf_len hd, lockstep_length_sortBy hlock]; exact hj
    have h1 := hsorted j hlen i hij
    rw [interfaceOf_less hd c j i b a hb ha] at h1
    injection h1

theorem createIndex_of_sort {alg : Nat → SortProg} {n : Nat} {S : List comicData} {key : String}
    {c : coupledSlice} (h : createIndexSort alg n S key = .ok c) :
    createIndex alg n S key = .ok
      { comicsData := c.SortBy, fileName := key ++ "_index", positions := c.ToSort,
        fileText := writeIndex c.ToSort } := by
  simp only [createIndex, h]

theorem lessRecord_fieldLE {key : String} (hkey : key ∈ keys) {a b : comicData}
    (h : lessRecord key b a = false) : fieldLE key a b = true := by
  simp only [keys, List.mem_cons, List.mem_singleton, List.mem_nil_iff, or_false] at hkey
  rcases hkey with rfl | rfl | rfl | rfl
  · simp only [lessRecord] at h
    simp only [fieldLE, strLe]
    split at h
    · rename_i heq
      rw [heq, strLt_irrefl]; rfl
    · rw [h]; rfl
  · simp only [lessRecord, decide_eq_false_iff_not, not_lt] at h
    simp only [fieldLE, decide_eq_true_eq]
    exact h
  · simp only [lessRecord] at h
    simp only [fieldLE, strLe]
    split at h
    · rename_i heq
      rw [heq, strLt_irrefl]; rfl
    · rw [h]; rfl
  · simp only [lessRecord] at h
    simp only [fieldLE, strLe]
    rw [h]; rfl

theorem lockstep_perm {S : List comicData} {c : coupledSlice} (h : Lockstep S c) :
    c.SortBy.Perm S := by
  have h1 : (c.SortBy.map some).Perm (S.map some) := by
    rw [h.1]
    have h2 := (h.2.map (sliceGet? S))
    have h3 := (lockstep_initial S).1
    simp only [initialSlices] at h3
    rw [← h3] at h2
    exact h2
  rw [List.perm_iff_count]
  intro a
  have := h1.count_eq (some a)
  rwa [List.count_map_of_injective _ _ (Option.some_injective _),
    List.count_map_of_injective _ _ (Option.some_injective _)] at this

theorem lockstep_count {S : List comicData} {c : coupledSlice} (h : Lockstep S c) (k : Nat)
    (hk : k < S.length) : c.ToSort.count (k : Int) = 1 := by
  rw [h.2.count_eq]
  apply List.count_eq_one_of_mem
  · exact (List.nodup_range _).map (fun a b hab => Int.ofNat.inj hab)
  · simp only [initialToSort, List.mem_map, List.mem_range]
    exact ⟨k, hk, rfl⟩

theorem sortSpec_of_run (alg : Nat → SortProg) (S : List comicData) (key : String)
    (data : Interface coupledSlice) (c : coupledSlice) (hd : interfaceOf key = some data)
    (hrun : sortSort alg data (initialSlices S.length S) = .ok c) (hsorted : SortedBy data c) :
    SortSpec alg S key := by
  intro data2 hd2
  rw [hd] at hd2
  have := Option.some.inj hd2
  subst this
  exact ⟨c, hrun, hsorted⟩

theorem sortSpec_sample_month : SortSpec smallSort sampleStore "month" :=
  sortSpec_of_run smallSort sampleStore "month" byMonth _ rfl rfl (by decide)

theorem sortSpec_sample_year : SortSpec smallSort sampleStore "year" :=
  sortSpec_of_run smallSort sampleStore "year" byYear _ rfl rfl (by decide)

theorem lessRecord_irrefl {key : String} (a : comicData) : lessRecord key a a = false := by
  unfold lessRecord
  split <;> simp [strLt_irrefl]

/-- The order of the written positions decides every `Less` comparison that is true. -/
theorem createIndex_less_order (alg : Nat → SortProg) (S : List comicData) (key : String)
    (hkey : key ∈ keys) (hsort : SortSpec alg S key) :
    ∃ r, createIndex alg S.length S key = .ok r ∧
      ∀ i j a b, recordAt S r.positions i = .ok a → recordAt S r.positions j = .ok b →
        lessRecord key a b = true → i < j := by
  obtain ⟨c, hc, hlock, hsorted⟩ := createIndexSort_spec alg S key hkey hsort
  refine ⟨_, createIndex_of_sort hc, ?_⟩
  intro i j a b hra hrb hless
  have hi : i < S.length := by
    have := recordAt_lt hra
    rwa [lockstep_length_toSort hlock] at this
  have hj : j < S.length := by
    have := recordAt_lt hrb
    rwa [lockstep_length_toSort hlock] at this
  obtain ⟨a2, ha, hra2⟩ := lockstep_recordAt hlock i hi
  obtain ⟨b2, hb, hrb2⟩ := lockstep_recordAt hlock j hj
  simp only at hra hrb
  rw [hra] at hra2
  rw [hrb] at hrb2
  injection hra2 with hra2
  injection hrb2 with hrb2
  subst hra2 hrb2
  by_contra hcon
  rcases Nat.lt_or_ge j i with hji | hji
  · have := hsorted i hi j hji b a hb ha
    rw [this] at hless
    cases hless
  · have hij : i = j := by omega
    subst hij
    rw [ha] at hb
    injection hb with hb
    subst hb
    rw [lessRecord_irrefl] at hless
    cases hless


theorem sortSpec_sample_title : SortSpec smallSort sampleStore "title" :=
  sortSpec_of_run smallSort sampleStore "title" byTitle _ rfl rfl (by decide)

theorem sortSpec_sample_num : SortSpec smallSort sampleStore "num" :=
  sortSpec_of_run smallSort sampleStore "num" byNum _ rfl rfl (by decide)

theorem searchLoop_spec (f : Nat → Except Panic Bool) (p : Nat → Bool) (n : Nat)
    (hf : ∀ i, i < n → f i = .ok (p i))
    (hmono : ∀ i j, i ≤ j → j < n → p i = true → p j = true) :
    ∀ (fuel i j : Nat) (h : j - i ≤ fuel), i ≤ j → j ≤ n →
      (∀ k, k < i → p k = false) → (∀ k, j ≤ k → k < n → p k = true) →
      ∃ L, searchLoop f fuel i j h = .ok L ∧ L ≤ n ∧
        (∀ k, k < L → p k = false) ∧ (∀ k, L ≤ k → k < n → p k = true) := by
  intro fuel
  induction fuel with
  | zero =>
    intro i j h hij hjn hlo hhi
    refine ⟨i, rfl, by omega, hlo, ?_⟩
    intro k hk hkn
    exact hhi k (by omega) hkn
  | succ fuel ih =>
    intro i j h hij hjn hlo hhi
    unfold searchLoop
    by_cases hlt : i < j
    · simp only [hlt, if_true]
      have hm : (i + j) / 2 < n := by omega
      rw [hf _ hm]
      cases hp : p ((i + j) / 2)
      · simp only
        apply ih
        · omega
        · exact hjn
        · intro k hk
          cases hpk : p k
          · rfl
          · have := hmono k ((i + j) / 2) (by omega) hm hpk
            rw [hp] at this
            cases this
        · exact hhi
      · simp only
        apply ih
        · omega
        · omega
        · exact hlo
        · intro k hk hkn
          exact hmono _ k hk hkn hp
    · simp only [hlt, if_false]
      refine ⟨i, rfl, by omega, hlo, ?_⟩
      intro k hk hkn
      exact hhi k (by omega) hkn

theorem Search_spec (f : Nat → Except Panic Bool) (p : Nat → Bool) (n : Nat)
    (hf : ∀ i, i < n → f i = .ok (p i))
    (hmono : ∀ i j, i ≤ j → j < n → p i = true → p j = true) :
    ∃ L, Search n f = .ok L ∧ L ≤ n ∧
      (∀ k, k < L → p k = false) ∧ (∀ k, L ≤ k → k < n → p k = true) := by
  unfold Search
  apply searchLoop_spec f p n hf hmono
  · omega
  · omega
  · intro k hk; omega
  · intro k hk hkn; omega

theorem perm_recordAt {S : List comicData} {index : List Int}
    (hperm : index.Perm (initialToSort S.length)) (i : Nat) (hi : i < S.length) :
    ∃ r, recordAt S index i = .ok r := by
  have hlen : index.length = S.length := by
    have := hperm.length_eq
    simpa [initialToSort] using this
  have hi2 : i < index.length := by omega
  have hmem : index[i] ∈ initialToSort S.length := (hperm.mem_iff).1 (List.getElem_mem hi2)
  simp only [initialToSort, List.mem_map, List.mem_range] at hmem
  obtain ⟨k, hk, hke⟩ := hmem
  refine ⟨S[k], ?_⟩
  simp only [recordAt, sliceAt, List.getElem?_eq_getElem hi2, sliceGet, ← hke, sliceGet?_ofNat,
    List.getElem?_eq_getElem hk]

theorem perm_recordAt_lt {S : List comicData} {index : List Int}
    (hperm : index.Perm (initialToSort S.length)) {i : Nat} {r : comicData}
    (h : recordAt S index i = .ok r) : i < S.length := by
  have hlen : index.length = S.length := by
    have := hperm.length_eq
    simpa [initialToSort] using this
  have := recordAt_lt h
  omega

theorem search_probe_spec (S : List comicData) (index : List Int) (test : comicData → Bool)
    (hperm : index.Perm (initialToSort S.length))
    (hmono : ∀ i j a b, i < j → recordAt S index i = .ok a → recordAt S index j = .ok b →
      test a = true → test b = true) :
    ∃ L, Search S.length (probe S index test) = .ok L ∧ L ≤ S.length ∧
      ∀ i r, recordAt S index i = .ok r → (L ≤ i ↔ test r = true) := by
  let p : Nat → Bool := fun i =>
    match recordAt S index i with
    | .ok r => test r
    | .error _ => false
  have hf : ∀ i, i < S.length → probe S index test i = .ok (p i) := by
    intro i hi
    obtain ⟨r, hr⟩ := perm_recordAt hperm i hi
    simp only [probe, hr, p]
  have hm : ∀ i j, i ≤ j → j < S.length → p i = true → p j = true := by
    intro i j hij hj hpi
    obtain ⟨a, ha⟩ := perm_recordAt hperm i (by omega)
    obtain ⟨b, hb⟩ := perm_recordAt hperm j hj
    rcases Nat.lt_or_ge i j with hlt | hge
    · simp only [p, ha] at hpi
      simp only [p, hb]
      exact hmono i j a b hlt ha hb hpi
    · have : i = j := by omega
      subst this
      exact hpi
  obtain ⟨L, hL, hLn, hlo, hhi⟩ := Search_spec _ p S.length hf hm
  refine ⟨L, hL, hLn, ?_⟩
  intro i r hr
  have hi := perm_recordAt_lt hperm hr
  constructor
  · intro hLi
    have := hhi i hLi hi
    simpa only [p, hr] using this
  · intro ht
    by_contra hcon
    have := hlo i (by omega)
    simp only [p, hr] at this
    rw [this] at ht
    cases ht

theorem strGe_iff (a b : String) : strGe a b = true ↔ b ≤ a := by
  unfold strGe
  rw [Bool.not_eq_true', ← Bool.not_eq_true, strLt_iff, not_lt]

theorem strGt_iff (a b : String) : strGt a b = true ↔ b < a := by
  unfold strGt
  exact strLt_iff b a

theorem strLe_iff (a b : String) : strLe a b = true ↔ a ≤ b := by
  unfold strLe
  rw [Bool.not_eq_true', ← Bool.not_eq_true, strLt_iff, not_lt]

theorem satisfies_text_ge (value : String) (r : comicData) :
    (satisfies "month" ">=" value r = true ↔ value ≤ r.Month) ∧
    (satisfies "year" ">=" value r = true ↔ value ≤ r.Year) ∧
    (satisfies "title" ">=" value r = true ↔ value ≤ r.Title) := by
  simp only [satisfies, strGe_iff, and_self]

theorem satisfies_text_gt (value : String) (r : comicData) :
    (satisfies "month" ">" value r = true ↔ value < r.Month) ∧
    (satisfies "year" ">" value r = true ↔ value < r.Year) ∧
    (satisfies "title" ">" value r = true ↔ value < r.Title) := by
  simp only [satisfies, strGt_iff, and_self]

theorem satisfies_text_le (value : String) (r : comicData) :
    (satisfies "month" "<=" value r = true ↔ r.Month ≤ value) ∧
    (satisfies "year" "<=" value r = true ↔ r.Year ≤ value) ∧
    (satisfies "title" "<=" value r = true ↔ r.Title ≤ value) := by
  simp only [satisfies, strLe_iff, and_self]

theorem satisfies_text_eq (value : String) (r : comicData) :
    (satisfies "month" "=" value r = true ↔ r.Month = value) ∧
    (satisfies "year" "=" value r = true ↔ r.Year = value) ∧
    (satisfies "title" "=" value r = true ↔ r.Title = value) := by
  simp only [satisfies, decide_eq_true_eq, and_self]

theorem satisfies_num {value : String} {v : Int} (hv : Atoi value = .ok v) (r : comicData) :
    (satisfies "num" ">=" value r = true ↔ v ≤ r.Num) ∧
    (satisfies "num" ">" value r = true ↔ v < r.Num) ∧
    (satisfies "num" "<=" value r = true ↔ r.Num ≤ v) ∧
    (satisfies "num" "=" value r = true ↔ r.Num = v) := by
  simp only [satisfies, hv, decide_eq_true_eq, ge_iff_le, gt_iff_lt, and_self]

theorem fieldLE_iff (a b : comicData) :
    (fieldLE "month" a b = true ↔ a.Month ≤ b.Month) ∧
    (fieldLE "year" a b = true ↔ a.Year ≤ b.Year) ∧
    (fieldLE "title" a b = true ↔ a.Title ≤ b.Title) ∧
    (fieldLE "num" a b = true ↔ a.Num ≤ b.Num) := by
  simp only [fieldLE, strLe_iff, decide_eq_true_eq, and_self]

/-- The bound that `findIndex` returns is the search for the test of the bound. -/
theorem findIndex_eq_search (n : Nat) (S : List comicData) (index : List Int)
    (key inequality value : String) (hkey : key ∈ keys)
    (hparse : key = "num" → ∃ v, Atoi value = .ok v) :
    findIndex n S index key inequality value true
        = Search n (probe S index (satisfies key ">=" value)) ∧
    findIndex n S index key inequality value false
        = Search n (probe S index (satisfies key ">" value)) := by
  simp only [keys, List.mem_cons, List.mem_singleton, List.mem_nil_iff, or_false] at hkey
  rcases hkey with rfl | rfl | rfl | rfl
  · constructor <;> rfl
  · obtain ⟨v, hv⟩ := hparse rfl
    have hge : satisfies "num" ">=" value = fun r => decide (r.Num ≥ v) := by
      funext r
      simp only [satisfies, hv]
    have hgt : satisfies "num" ">" value = fun r => decide (r.Num > v) := by
      funext r
      simp only [satisfies, hv]
    rw [hge, hgt]
    constructor
    · simp only [findIndex, hv, if_true]
    · simp only [findIndex, hv, Bool.false_eq_true, if_false]
  · constructor <;> rfl
  · constructor <;> rfl

theorem satisfies_mono {key value : String} (hkey : key ∈ keys)
    (hparse : key = "num" → ∃ v, Atoi value = .ok v) {a b : comicData}
    (hle : fieldLE key a b = true) :
    (satisfies key ">=" value a = true → satisfies key ">=" value b = true) ∧
    (satisfies key ">" value a = true → satisfies key ">" value b = true) := by
  simp only [keys, List.mem_cons, List.mem_singleton, List.mem_nil_iff, or_false] at hkey
  rcases hkey with rfl | rfl | rfl | rfl
  · rw [(fieldLE_iff a b).1] at hle
    rw [(satisfies_text_ge value a).1, (satisfies_text_ge value b).1,
      (satisfies_text_gt value a).1, (satisfies_text_gt value b).1]
    exact ⟨fun h => le_trans h hle, fun h => lt_of_lt_of_le h hle⟩
  · obtain ⟨v, hv⟩ := hparse rfl
    rw [(fieldLE_iff a b).2.2.2] at hle
    rw [(satisfies_num hv a).1, (satisfies_num hv b).1, (satisfies_num hv a).2.1,
      (satisfies_num hv b).2.1]
    exact ⟨fun h => le_trans h hle, fun h => lt_of_lt_of_le h hle⟩
  · rw [(fieldLE_iff a b).2.1] at hle
    rw [(satisfies_text_ge value a).2.1, (satisfies_text_ge value b).2.1,
      (satisfies_text_gt value a).2.1, (satisfies_text_gt value b).2.1]
    exact ⟨fun h => le_trans h hle, fun h => lt_of_lt_of_le h hle⟩
  · rw [(fieldLE_iff a b).2.2.1] at hle
    rw [(satisfies_text_ge value a).2.2, (satisfies_text_ge value b).2.2,
      (satisfies_text_gt value a).2.2, (satisfies_text_gt value b).2.2]
    exact ⟨fun h => le_trans h hle, fun h => lt_of_lt_of_le h hle⟩

theorem satisfies_le_eq {key value : String} (hkey : key ∈ keys)
    (hparse : key = "num" → ∃ v, Atoi value = .ok v) (r : comicData) :
    (satisfies key "<=" value r = true ↔ ¬ satisfies key ">" value r = true) ∧
    (satisfies key "=" value r = true ↔
      (satisfies key ">=" value r = true ∧ ¬ satisfies key ">" value r = true)) := by
  simp only [keys, List.mem_cons, List.mem_singleton, List.mem_nil_iff, or_false] at hkey
  rcases hkey with rfl | rfl | rfl | rfl
  · rw [(satisfies_text_ge value r).1, (satisfies_text_gt value r).1,
      (satisfies_text_le value r).1, (satisfies_text_eq value r).1, not_lt]
    exact ⟨Iff.rfl, fun h => ⟨h.ge, h.le⟩, fun h => le_antisymm h.2 h.1⟩
  · obtain ⟨v, hv⟩ := hparse rfl
    rw [(satisfies_num hv r).1, (satisfies_num hv r).2.1, (satisfies_num hv r).2.2.1,
      (satisfies_num hv r).2.2.2, not_lt]
    exact ⟨Iff.rfl, fun h => ⟨h.ge, h.le⟩, fun h => le_antisymm h.2 h.1⟩
  · rw [(satisfies_text_ge value r).2.1, (satisfies_text_gt value r).2.1,
      (satisfies_text_le value r).2.1, (satisfies_text_eq value r).2.1, not_lt]
    exact ⟨Iff.rfl, fun h => ⟨h.ge, h.le⟩, fun h => le_antisymm h.2 h.1⟩
  · rw [(satisfies_text_ge value r).2.2, (satisfies_text_gt value r).2.2,
      (satisfies_text_le value r).2.2, (satisfies_text_eq value r).2.2, not_lt]
    exact ⟨Iff.rfl, fun h => ⟨h.ge, h.le⟩, fun h => le_antisymm h.2 h.1⟩


theorem indexSorted_of_check {key : String} {S : List comicData} {index : List Int}
    (h : indexSortedCheck key S index = true) : IndexSorted key S index := by
  intro i j a b hij ha hb
  have hj := recordAt_lt hb
  have := of_decide_eq_true h j hj i hij
  simpa only [pairInOrder, ha, hb] using this

theorem digitChar_toNat (d : Nat) (hd : d < 10) : (digitChar d).toNat = 48 + d := by
  interval_cases d <;> rfl

theorem digitChar_isDigit (d : Nat) (hd : d < 10) : IsDigit (digitChar d) := by
  unfold IsDigit
  rw [digitChar_toNat d hd]
  omega

theorem formatBits_digits :
    ∀ (fuel n : Nat) (h : n ≤ fuel) (acc : List Char), (∀ c ∈ acc, IsDigit c) →
      ∀ c ∈ formatBits fuel n h acc, IsDigit c := by
  intro fuel
  induction fuel with
  | zero =>
    intro n h acc hacc c hc
    simp only [formatBits, List.mem_cons] at hc
    rcases hc with rfl | hc
    · exact digitChar_isDigit 0 (by omega)
    · exact hacc c hc
  | succ fuel ih =>
    intro n h acc hacc c hc
    unfold formatBits at hc
    split at hc
    · rename_i hn
      simp only [List.mem_cons] at hc
      rcases hc with rfl | hc
      · exact digitChar_isDigit n hn
      · exact hacc c hc
    · refine ih _ _ _ ?_ c hc
      intro d hd
      simp only [List.mem_cons] at hd
      rcases hd with rfl | hd
      · exact digitChar_isDigit _ (Nat.mod_lt _ (by omega))
      · exact hacc d hd

theorem formatBits_length :
    ∀ (fuel n : Nat) (h : n ≤ fuel) (acc : List Char) (k : Nat), n < 10 ^ (k + 1) →
      (formatBits fuel n h acc).length ≤ acc.length + k + 1 ∧
      acc.length < (formatBits fuel n h acc).length := by
  intro fuel
  induction fuel with
  | zero =>
    intro n h acc k _
    simp only [formatBits, List.length_cons]
    omega
  | succ fuel ih =>
    intro n h acc k hk
    unfold formatBits
    split
    · simp only [List.length_cons]
      omega
    · rename_i hn
      cases k with
      | zero => omega
      | succ k =>
        have h10 : n / 10 < 10 ^ (k + 1) := by
          rw [Nat.div_lt_iff_lt_mul (by omega)]
          rw [pow_succ] at hk
          exact hk
        have := ih (n / 10) (by omega) (digitChar (n % 10) :: acc) k h10
        simp only [List.length_cons] at this
        omega

theorem parseUintLoop_formatBits :
    ∀ (fuel n : Nat) (h : n ≤ fuel) (acc : List Char), n ≤ maxUint64 →
      parseUintLoop (formatBits fuel n h acc) 0 = parseUintLoop acc n := by
  intro fuel
  induction fuel with
  | zero =>
    intro n h acc _
    have hn : n = 0 := by omega
    subst hn
    rfl
  | succ fuel ih =>
    intro n h acc hmax
    unfold formatBits
    split
    · rename_i hn
      have h1 := digitChar_toNat n hn
      simp only [parseUintLoop, h1]
      have hmx : maxUint64 = 18446744073709551615 := by decide
      rw [hmx] at hmax ⊢
      rw [if_pos (by omega), if_neg (by omega), if_neg (by omega)]
      congr 1
      omega
    · rename_i hn
      rw [ih (n / 10) (by omega) _ (by omega)]
      have h1 := digitChar_toNat (n % 10) (Nat.mod_lt _ (by omega))
      simp only [parseUintLoop, h1]
      have hmx : maxUint64 = 18446744073709551615 := by decide
      rw [hmx] at hmax ⊢
      rw [if_pos (by omega), if_neg (by omega), if_neg (by omega)]
      congr 1
      omega

theorem formatNat_cons (n : Nat) : ∃ c cs, formatNat n = c :: cs ∧ IsDigit c := by
  have hl := (formatBits_length n n (Nat.le_refl n) [] n (Nat.lt_pow_self (by omega) _ |>.trans_le
    (Nat.pow_le_pow_right (by omega) (by omega)))).2
  have hd := formatBits_digits n n (Nat.le_refl n) [] (by simp)
  unfold formatNat
  cases hfn : formatBits n n (Nat.le_refl n) [] with
  | nil => rw [hfn] at hl; simp at hl
  | cons c cs =>
    refine ⟨c, cs, rfl, ?_⟩
    apply hd
    rw [hfn]
    simp

theorem Atoi_formatInt (p : Int) (h0 : 0 ≤ p) (h1 : p < 2 ^ 63) : Atoi (formatInt p) = .ok p := by
  obtain ⟨n, rfl⟩ := Int.eq_ofNat_of_zero_le h0
  have hn : n < 2 ^ 63 := by exact_mod_cast h1
  obtain ⟨c, cs, hcs, hc⟩ := formatNat_cons n
  have hparse : parseUintLoop (formatNat n) 0 = .ok n := by
    unfold formatNat
    rw [parseUintLoop_formatBits n n _ [] (by
      have hmx : maxUint64 = 18446744073709551615 := by decide
      rw [hmx]; omega)]
    rfl
  have hplus : c ≠ '+' := by
    intro h; subst h; unfold IsDigit at hc; revert hc; decide
  have hminus : c ≠ '-' := by
    intro h; subst h; unfold IsDigit at hc; revert hc; decide
  have hfmt : (formatInt (n : Int)).data = c :: cs := by
    simp only [formatInt, Int.natAbs_ofNat]
    rw [if_neg (by omega)]
    exact hcs
  unfold Atoi
  rw [hfmt]
  simp only [hplus, hminus, or_self, if_false, decide_False]
  rw [hcs] at hparse
  simp only [parseUint, hparse]
  rw [if_neg (by omega), if_neg (by simp)]
  simp

theorem isDigit_utf8Size {c : Char} (h : IsDigit c) : c.utf8Size = 1 := by
  unfold IsDigit at h
  have hv : c.val.toNat ≤ 57 := h.2
  unfold Char.utf8Size
  simp only
  rw [if_pos]
  show c.val.toNat ≤ 127
  omega

theorem byteLen_digits (ds : List Char) (h : ∀ c ∈ ds, IsDigit c) : byteLen ds = ds.length := by
  induction ds with
  | nil => rfl
  | cons d ds ih =>
    have h1 := isDigit_utf8Size (h d (by simp))
    have h2 := ih (fun c hc => h c (by simp [hc]))
    unfold byteLen at h2 ⊢
    simp only [List.map_cons, List.sum_cons, List.length_cons, h1, h2]
    omega

theorem dropCR_digits (ds : List Char) (h : ∀ c ∈ ds, IsDigit c) : dropCR ds = ds := by
  unfold dropCR
  rw [if_neg]
  intro hl
  have hmem : '\r' ∈ ds := List.mem_of_getLast?_eq_some hl
  have := h _ hmem
  revert this
  unfold IsDigit
  decide

theorem scanLinesAux_line (rest : List Char) :
    ∀ (ds cur : List Char), (∀ c ∈ ds, c ≠ '\n') →
      scanLinesAux (ds ++ '\n' :: rest) cur =
        if maxScanTokenSize ≤ byteLen (ds.reverse ++ cur) then []
        else String.mk (dropCR (ds.reverse ++ cur).reverse) :: scanLinesAux rest [] := by
  intro ds
  induction ds with
  | nil =>
    intro cur _
    simp only [List.nil_append, List.reverse_nil, scanLinesAux, if_true]
  | cons d ds ih =>
    intro cur h
    have hd : d ≠ '\n' := h d (by simp)
    have step : scanLinesAux (d :: (ds ++ '\n' :: rest)) cur
        = scanLinesAux (ds ++ '\n' :: rest) (d :: cur) := by
      rw [scanLinesAux, if_neg hd]
    rw [List.cons_append, step, ih (d :: cur) (fun c hc => h c (by simp [hc]))]
    simp only [List.reverse_cons, List.append_assoc, List.singleton_append]

theorem formatInt_data_nonneg (p : Int) (h0 : 0 ≤ p) (h1 : p < 2 ^ 63) :
    (formatInt p).data = formatNat p.natAbs ∧ (∀ c ∈ formatNat p.natAbs, IsDigit c) ∧
      (formatNat p.natAbs).length ≤ 19 := by
  refine ⟨?_, ?_, ?_⟩
  · unfold formatInt
    rw [if_neg (by omega)]
  · exact formatBits_digits _ _ _ [] (by simp)
  · have hn : p.natAbs < 10 ^ (18 + 1) := by omega
    have := (formatBits_length p.natAbs p.natAbs (Nat.le_refl _) [] 18 hn).1
    simpa [formatNat] using this

theorem scanLinesAux_writeIndex :
    ∀ (P : List Int), (∀ p ∈ P, 0 ≤ p ∧ p < 2 ^ 63) →
      scanLinesAux (P.map fun l => (formatInt l ++ "\n").data).flatten [] = P.map formatInt := by
  intro P
  induction P with
  | nil => intro _; rfl
  | cons p P ih =>
    intro h
    obtain ⟨hp0, hp1⟩ := h p (by simp)
    obtain ⟨hdata, hdig, hlen⟩ := formatInt_data_nonneg p hp0 hp1
    have hnl : ∀ c ∈ formatNat p.natAbs, c ≠ '\n' := by
      intro c hc heq
      subst heq
      have := hdig _ hc
      revert this
      unfold IsDigit
      decide
    have hstr : (formatInt p ++ "\n").data = formatNat p.natAbs ++ ['\n'] := by
      rw [String.data_append, hdata]
    simp only [List.map_cons, List.flatten_cons, hstr, List.append_assoc, List.singleton_append]
    rw [scanLinesAux_line _ _ [] hnl]
    simp only [List.append_nil, List.reverse_reverse]
    have hb : byteLen (formatNat p.natAbs).reverse = (formatNat p.natAbs).length := by
      rw [byteLen_digits _ (fun c hc => hdig c (List.mem_reverse.1 hc)), List.length_reverse]
    have hs : String.mk (formatNat p.natAbs) = formatInt p := by rw [← hdata]
    rw [hb, if_neg (by unfold maxScanTokenSize; omega), dropCR_digits _ hdig,
      ih (fun q hq => h q (by simp [hq])), hs]

theorem scanLines_writeIndex (P : List Int) (h : ∀ p ∈ P, 0 ≤ p ∧ p < 2 ^ 63) :
    scanLines (writeIndex P) = P.map formatInt := by
  unfold scanLines writeIndex
  rw [String.join_eq]
  simp only [List.map_map]
  exact scanLinesAux_writeIndex P h

theorem loadIndexLoop_spec :
    ∀ (P pre mid post : List Int), mid.length = P.length →
      (∀ p ∈ P, Atoi (formatInt p) = .ok p) →
      loadIndexLoop (P.map formatInt) pre.length (pre ++ mid ++ post) = .ok (pre ++ P ++ post) := by
  intro P
  induction P with
  | nil =>
    intro pre mid post hmid _
    have : mid = [] := List.length_eq_zero.1 hmid
    subst this
    rfl
  | cons p P ih =>
    intro pre mid post hmid hA
    cases mid with
    | nil => simp at hmid
    | cons m mid =>
      have hp := hA p (by simp)
      simp only [List.map_cons, loadIndexLoop, hp]
      rw [if_pos (by simp)]
      have hset : (pre ++ m :: mid ++ post).set pre.length p = (pre ++ [p]) ++ mid ++ post := by
        simp [List.set_append_right]
      rw [hset]
      have := ih (pre ++ [p]) mid post (by simpa using hmid) (fun q hq => hA q (by simp [hq]))
      simp only [List.length_append, List.length_singleton] at this
      rw [this]
      simp

theorem initialToSort_sorted (n : Nat) : (initialToSort n).Pairwise (· < ·) := by
  unfold initialToSort
  rw [List.pairwise_map]
  exact (List.pairwise_lt_range n).imp (fun h => Int.ofNat_lt.2 h)

theorem lockstep_nodup {S : List comicData} {c : coupledSlice} (h : Lockstep S c) :
    c.ToSort.Nodup := by
  rw [h.2.nodup_iff]
  exact (List.nodup_range _).map (fun a b hab => Int.ofNat.inj hab)

theorem lockstep_getElem {S : List comicData} {c : coupledSlice} (h : Lockstep S c) (k : Nat)
    (hk : k < c.ToSort.length) :
    ∃ u, u < S.length ∧ c.ToSort[k] = Int.ofNat u ∧ c.SortBy[k]? = S[u]? := by
  have hmem : c.ToSort[k] ∈ initialToSort S.length := (h.2.mem_iff).1 (List.getElem_mem hk)
  simp only [initialToSort, List.mem_map, List.mem_range] at hmem
  obtain ⟨u, hu, hue⟩ := hmem
  refine ⟨u, hu, hue.symm, ?_⟩
  have hk1 : k < c.SortBy.length := by
    rw [lockstep_length_sortBy h, ← lockstep_length_toSort h]; exact hk
  have := congrArg (fun l => l[k]?) h.1
  simp only [List.getElem?_map, List.getElem?_eq_getElem hk1, List.getElem?_eq_getElem hk,
    Option.map_some', ← hue, sliceGet?_ofNat] at this
  rw [List.getElem?_eq_getElem hk1]
  exact Option.some.inj this

/-- On a store that is already in strictly ascending order of the comparison of a key, the
written index is the identity. -/
theorem createIndex_identity (alg : Nat → SortProg) (S : List comicData) (key : String)
    (hkey : key ∈ keys) (hsort : SortSpec alg S key)
    (hstore : ∀ j, j < S.length → ∀ i, i < j → ∀ a b, S[i]? = some a → S[j]? = some b →
      lessRecord key a b = true) :
    ∃ r, createIndex alg S.length S key = .ok r ∧ r.positions = initialToSort S.length := by
  obtain ⟨c, hc, hlock, hsorted⟩ := createIndexSort_spec alg S key hkey hsort
  refine ⟨_, createIndex_of_sort hc, ?_⟩
  show c.ToSort = initialToSort S.length
  apply List.eq_of_perm_of_sorted hlock.2 _ (initialToSort_sorted _)
  unfold List.Sorted
  rw [List.pairwise_iff_getElem]
  intro i j hi hj hij
  obtain ⟨u, hu, hue, hsu⟩ := lockstep_getElem hlock i hi
  obtain ⟨v, hv, hve, hsv⟩ := lockstep_getElem hlock j hj
  rw [hue, hve]
  apply Int.ofNat_lt.2
  have hjS : j < S.length := by rw [← lockstep_length_toSort hlock]; exact hj
  rw [List.getElem?_eq_getElem hu] at hsu
  rw [List.getElem?_eq_getElem hv] at hsv
  have hfalse := hsorted j hjS i hij S[u] S[v] hsu hsv
  rcases Nat.lt_trichotomy u v with huv | huv | huv
  · exact huv
  · exfalso
    subst huv
    have := (lockstep_nodup hlock).getElem_inj_iff.1 (hue.trans hve.symm)
    omega
  · exfalso
    have := hstore u hu v huv S[v] S[u] (List.getElem?_eq_getElem hv) (List.getElem?_eq_getElem hu)
    rw [this] at hfalse
    cases hfalse

theorem storeAscending_spec {key : String} {S : List comicData}
    (h : storeAscending key S = true) :
    ∀ j, j < S.length → ∀ i, i < j → ∀ a b, S[i]? = some a → S[j]? = some b →
      lessRecord key a b = true := by
  intro j hj i hij a b ha hb
  have := of_decide_eq_true h j hj i hij
  simpa only [pairAscending, ha, hb] using this

theorem sortSpec_scenario_year : SortSpec smallSort scenarioStore "year" :=
  sortSpec_of_run smallSort scenarioStore "year" byYear _ rfl rfl (by decide)

theorem sortSpec_scenario_num : SortSpec smallSort scenarioStore "num" :=
  sortSpec_of_run smallSort scenarioStore "num" byNum _ rfl rfl (by decide)

theorem readable_recordAt {n : Nat} {S : List comicData} {index : List Int}
    (h : ReadableIndex n S index) (i : Nat) (hi : i < n) : ∃ r, recordAt S index i = .ok r := by
  have := h i hi
  cases hr : recordAt S index i with
  | ok r => exact ⟨r, rfl⟩
  | error e => rw [hr] at this; cases this

theorem searchLoop_total (f : Nat → Except Panic Bool) (n : Nat)
    (hf : ∀ i, i < n → ∃ b, f i = .ok b) :
    ∀ (fuel i j : Nat) (h : j - i ≤ fuel), i ≤ j → j ≤ n →
      ∃ L, searchLoop f fuel i j h = .ok L ∧ i ≤ L ∧ L ≤ j := by
  intro fuel
  induction fuel with
  | zero =>
    intro i j h hij hjn
    exact ⟨i, rfl, by omega, by omega⟩
  | succ fuel ih =>
    intro i j h hij hjn
    unfold searchLoop
    by_cases hlt : i < j
    · simp only [hlt, if_true]
      obtain ⟨b, hb⟩ := hf ((i + j) / 2) (by omega)
      rw [hb]
      cases b
      · simp only
        obtain ⟨L, hL, h1, h2⟩ := ih ((i + j) / 2 + 1) j (by omega) (by omega) hjn
        exact ⟨L, hL, by omega, h2⟩
      · simp only
        obtain ⟨L, hL, h1, h2⟩ := ih i ((i + j) / 2) (by omega) (by omega) (by omega)
        exact ⟨L, hL, h1, by omega⟩
    · simp only [hlt, if_false]
      exact ⟨i, rfl, by omega, by omega⟩

theorem Search_total (f : Nat → Except Panic Bool) (n : Nat)
    (hf : ∀ i, i < n → ∃ b, f i = .ok b) : ∃ L, Search n f = .ok L ∧ L ≤ n := by
  obtain ⟨L, hL, _, h2⟩ := searchLoop_total f n hf n 0 n (by omega) (by omega) (by omega)
  exact ⟨L, hL, h2⟩

theorem search_probe_total {n : Nat} {S : List comicData} {index : List Int}
    (h : ReadableIndex n S index) (test : comicData → Bool) :
    ∃ L, Search n (probe S index test) = .ok L ∧ L ≤ n := by
  apply Search_total
  intro i hi
  obtain ⟨r, hr⟩ := readable_recordAt h i hi
  exact ⟨test r, by simp only [probe, hr]⟩

/-- With a readable index, `findIndex` returns a bound for every text key and every value, and
for `num` whenever the value is an integer text. -/
theorem findIndex_total {n : Nat} {S : List comicData} {index : List Int}
    (h : ReadableIndex n S index) (key inequality value : String) (isLeftBound : Bool)
    (hparse : key = "num" → ∃ v, Atoi value = .ok v) :
    ∃ b, findIndex n S index key inequality value isLeftBound = .ok b ∧ b ≤ n := by
  unfold findIndex
  split
  · cases isLeftBound <;> simp only [Bool.false_eq_true, if_false, if_true]
      <;> exact search_probe_total h _
  · obtain ⟨v, hv⟩ := hparse rfl
    simp only [hv]
    cases isLeftBound <;> simp only [Bool.false_eq_true, if_false, if_true]
      <;> exact search_probe_total h _
  · cases isLeftBound <;> simp only [Bool.false_eq_true, if_false, if_true]
      <;> exact search_probe_total h _
  · cases isLeftBound <;> simp only [Bool.false_eq_true, if_false, if_true]
      <;> exact search_probe_total h _
  · exact ⟨0, rfl, by omega⟩

theorem findIndex_num_error (n : Nat) (S : List comicData) (index : List Int)
    (inequality value : String) (isLeftBound : Bool) (err : NumError)
    (h : Atoi value = .error err) :
    findIndex n S index "num" inequality value isLeftBound = .error (.atoi value err) := by
  simp only [findIndex, h]

theorem printRange_total {n : Nat} {S : List comicData} {index : List Int}
    (h : ReadableIndex n S index) :
    ∀ (count i : Nat), i + count ≤ n → ∃ out, printRange S index i count = .ok out := by
  intro count
  induction count with
  | zero => intro i _; exact ⟨[], rfl⟩
  | succ count ih =>
    intro i hi
    obtain ⟨r, hr⟩ := readable_recordAt h i (by omega)
    obtain ⟨out, hout⟩ := ih (i + 1) (by omega)
    exact ⟨.record r :: out, by simp only [printRange, hr, hout]⟩

theorem selectIndex_readable {g : Globals} (hg : g.Loaded) {key : String} {index : List Int}
    (h : selectIndex g key = some index) : ReadableIndex g.numComics g.comicsData index := by
  unfold selectIndex at h
  split at h
  · injection h with h; subst h; exact hg.1
  · injection h with h; subst h; exact hg.2.1
  · injection h with h; subst h; exact hg.2.2.1
  · injection h with h; subst h; exact hg.2.2.2
  · cases h

theorem queryBounds_total {n : Nat} {S : List comicData} {index : List Int}
    (h : ReadableIndex n S index) (key inequality value : String)
    (hparse : key = "num" → inequality ∈ operands → ∃ v, Atoi value = .ok v) :
    queryBounds n S index key inequality value = .ok none ∨
      ∃ l r, queryBounds n S index key inequality value = .ok (some (l, r)) ∧ l ≤ n ∧ r ≤ n := by
  unfold queryBounds
  split
  · obtain ⟨b, hb, hbn⟩ := findIndex_total h key "<=" value false
      (fun hk => hparse hk (by decide))
    right
    exact ⟨0, b, by simp only [hb], by omega, hbn⟩
  · obtain ⟨b, hb, hbn⟩ := findIndex_total h key ">=" value true
      (fun hk => hparse hk (by decide))
    right
    exact ⟨b, n, by simp only [hb], hbn, by omega⟩
  · obtain ⟨b, hb, hbn⟩ := findIndex_total h key "=" value false
      (fun hk => hparse hk (by decide))
    obtain ⟨c, hc, hcn⟩ := findIndex_total h key "=" value true
      (fun hk => hparse hk (by decide))
    right
    exact ⟨c, b, by simp only [hb, hc], hcn, hbn⟩
  · left
    rfl

theorem queryBounds_num_error (n : Nat) (S : List comicData) (index : List Int)
    (inequality value : String) (hop : inequality ∈ operands) (err : NumError)
    (h : Atoi value = .error err) :
    queryBounds n S index "num" inequality value = .error (.atoi value err) := by
  simp only [operands, List.mem_cons, List.mem_singleton, List.mem_nil_iff, or_false] at hop
  rcases hop with rfl | rfl | rfl <;>
    simp only [queryBounds, findIndex_num_error n S index _ value _ err h]

theorem lessRecord_iff {key : String} (hkey : key ∈ keys) (a b : comicData) :
    lessRecord key a b = true ↔ sortKey key a < sortKey key b := by
  simp only [keys, List.mem_cons, List.mem_singleton, List.mem_nil_iff, or_false] at hkey
  rcases hkey with rfl | rfl | rfl | rfl
  · simp only [lessRecord, sortKey, Prod.Lex.lt_iff]
    by_cases h : a.Month = b.Month
    · simp [h]
    · simp only [h, if_false, strLt_iff, false_and, or_false]
  · simp only [lessRecord, sortKey, Prod.Lex.lt_iff, decide_eq_true_eq]
    simp
  · simp only [lessRecord, sortKey, Prod.Lex.lt_iff]
    by_cases h : a.Year = b.Year
    · simp [h]
    · simp only [h, if_false, strLt_iff, false_and, or_false]
  · simp only [lessRecord, sortKey, Prod.Lex.lt_iff, strLt_iff]
    simp

theorem swap_spec (c : coupledSlice) (n i j : Nat) (h1 : c.SortBy.length = n)
    (h2 : c.ToSort.length = n) (hi : i < n) (hj : j < n) :
    ∃ d, c.Swap i j = .ok d ∧ d.SortBy.length = n ∧ d.ToSort.length = n ∧
      ∀ p, d.SortBy.getD p comicData.zero =
        if p = j then c.SortBy.getD i comicData.zero
        else if p = i then c.SortBy.getD j comicData.zero
        else c.SortBy.getD p comicData.zero := by
  have hi1 : i < c.SortBy.length := by omega
  have hj1 : j < c.SortBy.length := by omega
  have hi2 : i < c.ToSort.length := by omega
  have hj2 : j < c.ToSort.length := by omega
  refine ⟨{ SortBy := (c.SortBy.set i c.SortBy[j]).set j c.SortBy[i],
             ToSort := (c.ToSort.set i c.ToSort[j]).set j c.ToSort[i] }, ?_, ?_, ?_, ?_⟩
  · unfold coupledSlice.Swap
    rw [List.getElem?_eq_getElem hi1, List.getElem?_eq_getElem hj1]
    simp only
    rw [List.getElem?_eq_getElem hi2, List.getElem?_eq_getElem hj2]
  · simp only [List.length_set]; exact h1
  · simp only [List.length_set]; exact h2
  · intro p
    simp only [List.getD_eq_getElem?_getD, List.getElem?_set, List.length_set]
    by_cases hpj : p = j
    · subst hpj
      simp [hj1, List.getElem?_eq_getElem hi1]
    · by_cases hpi : p = i
      · subst hpi
        simp [hpj, Ne.symm hpj, hi1, List.getElem?_eq_getElem hj1]
      · simp [hpj, hpi, Ne.symm hpj, Ne.symm hpi]

theorem less_spec {key : String} {data : Interface coupledSlice} (hkey : key ∈ keys)
    (hd : interfaceOf key = some data) (c : coupledSlice) (n i j : Nat)
    (h1 : c.SortBy.length = n) (hi : i < n) (hj : j < n) :
    ∃ b, data.Less c i j = .ok b ∧ (b = true ↔ keyAt key c i < keyAt key c j) := by
  have hi1 : i < c.SortBy.length := by omega
  have hj1 : j < c.SortBy.length := by omega
  refine ⟨_, interfaceOf_less hd c i j _ _ (List.getElem?_eq_getElem hi1)
    (List.getElem?_eq_getElem hj1), ?_⟩
  rw [lessRecord_iff hkey]
  simp only [keyAt, List.getD_eq_getElem?_getD, List.getElem?_eq_getElem hi1,
    List.getElem?_eq_getElem hj1, Option.getD_some]

theorem insertionInner_spec {key : String} {data : Interface coupledSlice} (hkey : key ∈ keys)
    (hd : interfaceOf key = some data) (n i : Nat) (hi : i < n) :
    ∀ (j : Nat) (c : coupledSlice), j ≤ i → c.SortBy.length = n → c.ToSort.length = n →
      Gap key c j i →
      ∃ d, d.SortBy.length = n ∧ d.ToSort.length = n ∧ PrefixSorted key d (i + 1) ∧
        ∀ rest, (insertionInner 0 j rest).run data c = rest.run data d := by
  intro j
  induction j with
  | zero =>
    intro c _ h1 h2 hgap
    refine ⟨c, h1, h2, ?_, fun rest => rfl⟩
    intro p q hpq hq
    by_cases hp0 : p = 0
    · subst hp0
      exact hgap.2 q hpq (by omega)
    · exact hgap.1 p q hpq (by omega) hp0 (by omega)
  | succ j ih =>
    intro c hji h1 h2 hgap
    obtain ⟨b, hb, hbiff⟩ := less_spec hkey hd c n (j + 1) j h1
      (by omega) (by omega)
    cases b with
    | false =>
      have hle : keyAt key c j ≤ keyAt key c (j + 1) := by
        rw [← not_lt]
        intro hlt
        have := hbiff.2 hlt
        cases this
      refine ⟨c, h1, h2, ?_, ?_⟩
      · intro p q hpq hq
        by_cases hq1 : q = j + 1
        · subst hq1
          by_cases hpj : p = j
          · subst hpj; exact hle
          · exact le_trans (hgap.1 p j (by omega) (by omega) (by omega) (by omega)) hle
        · by_cases hp1 : p = j + 1
          · subst hp1
            exact hgap.2 q hpq (by omega)
          · exact hgap.1 p q hpq (by omega) hp1 hq1
      · intro rest
        simp only [insertionInner, Nat.zero_lt_succ, if_true, SortProg.run, hb]
        rfl
    | true =>
      have hlt : keyAt key c (j + 1) < keyAt key c j := hbiff.1 rfl
      obtain ⟨d, hd1, hd2, hd3, hd4⟩ := swap_spec c n (j + 1) j h1 h2
        (by omega) (by omega)
      have hk : ∀ p, keyAt key d p =
          if p = j then keyAt key c (j + 1) else if p = j + 1 then keyAt key c j
          else keyAt key c p := by
        intro p
        simp only [keyAt, hd4 p]
        split
        · rfl
        · split <;> rfl
      have hgap2 : Gap key d j i := by
        constructor
        · intro p q hpq hq hpj hqj
          rw [hk p, hk q]
          simp only [hpj, hqj, if_false]
          by_cases hq1 : q = j + 1
          · subst hq1
            have hp1 : p ≠ j + 1 := by omega
            simp only [hp1, if_false, if_true]
            exact hgap.1 p j (by omega) (by omega) hp1 (by omega)
          · by_cases hp1 : p = j + 1
            · subst hp1
              simp only [hq1, if_false, if_true]
              exact hgap.1 j q (by omega) hq (by omega) hq1
            · simp only [hp1, hq1, if_false]
              exact hgap.1 p q hpq hq hp1 hq1
        · intro q hjq hq
          rw [hk j, hk q]
          have hqj : q ≠ j := by omega
          simp only [hqj, if_false, if_true]
          by_cases hq1 : q = j + 1
          · simp only [hq1, if_true]
            exact le_of_lt hlt
          · simp only [hq1, if_false]
            exact hgap.2 q (by omega) hq
      obtain ⟨e, he1, he2, he3, he4⟩ := ih d (by omega) hd2 hd3 hgap2
      refine ⟨e, he1, he2, he3, ?_⟩
      intro rest
      rw [← he4 rest]
      have hsw : data.Swap c (j + 1) j = .ok d := by
        rw [interfaceOf_swap hd]; exact hd1
      simp only [insertionInner, Nat.zero_lt_succ, if_true, SortProg.run, hb, hsw]

theorem insertionOuter_spec {key : String} {data : Interface coupledSlice} (hkey : key ∈ keys)
    (hd : interfaceOf key = some data) (n : Nat) :
    ∀ (count i : Nat) (c : coupledSlice), i + count ≤ n → c.SortBy.length = n →
      c.ToSort.length = n → PrefixSorted key c i →
      ∃ d, (insertionOuter 0 i count).run data c = .ok d ∧ d.SortBy.length = n ∧
        PrefixSorted key d (i + count) := by
  intro count
  induction count with
  | zero =>
    intro i c _ h1 _ hs
    exact ⟨c, rfl, h1, hs⟩
  | succ count ih =>
    intro i c hi h1 h2 hs
    have hgap : Gap key c i i := by
      constructor
      · intro p q hpq hq _ hqi
        exact hs p q hpq (by omega)
      · intro q hiq hq
        omega
    obtain ⟨d, hd1, hd2, hd3, hd4⟩ :=
      insertionInner_spec hkey hd n i (by omega) i c (Nat.le_refl i) h1 h2 hgap
    obtain ⟨e, he1, he2, he3⟩ := ih (i + 1) d (by omega) hd1 hd2 hd3
    refine ⟨e, ?_, he2, ?_⟩
    · simp only [insertionOuter]
      rw [hd4]
      exact he1
    · have : i + (count + 1) = i + 1 + count := by omega
      rw [this]
      exact he3

/-- The library routine `insertionSort` honours the contract of `sort.Sort` on every store, for
each of the four keys. -/
theorem smallSort_sortSpec (S : List comicData) (key : String) (hkey : key ∈ keys) :
    SortSpec smallSort S key := by
  intro data hd
  have hlen : data.Len (initialSlices S.length S) = S.length := by
    rw [interfaceOf_len hd]; rfl
  have hrun : ∃ d, (smallSort S.length).run data (initialSlices S.length S) = .ok d ∧
      d.SortBy.length = S.length ∧ PrefixSorted key d S.length := by
    rcases Nat.eq_zero_or_pos S.length with h0 | hpos
    · refine ⟨initialSlices S.length S, ?_, rfl, ?_⟩
      · rw [h0]; rfl
      · intro p q _ hq; omega
    · have := insertionOuter_spec hkey hd S.length (S.length - 1) 1 (initialSlices S.length S)
        (by omega) rfl (by simp [initialSlices, initialToSort])
        (by intro p q hpq hq; omega)
      obtain ⟨d, hd1, hd2, hd3⟩ := this
      refine ⟨d, hd1, hd2, ?_⟩
      have h1 : 1 + (S.length - 1) = S.length := by omega
      rw [h1] at hd3
      exact hd3
  obtain ⟨d, hd1, hd2, hd3⟩ := hrun
  refine ⟨d, ?_, ?_⟩
  · unfold sortSort
    rw [hlen]
    exact hd1
  · intro j hj i hij
    rw [interfaceOf_len hd, hd2] at hj
    obtain ⟨b, hb, hbiff⟩ := less_spec hkey hd d S.length j i hd2 hj
      (by omega)
    rw [hb]
    cases b with
    | false => rfl
    | true =>
      have := hbiff.1 rfl
      exact absurd this (not_lt.2 (hd3 i j hij hj))

theorem selectIndex_none {g : Globals} {key : String} (h : key ∉ keys) :
    selectIndex g key = none := by
  unfold selectIndex
  split
  · exact absurd (by decide : "month" ∈ keys) h
  · exact absurd (by decide : "num" ∈ keys) h
  · exact absurd (by decide : "year" ∈ keys) h
  · exact absurd (by decide : "title" ∈ keys) h
  · rfl

theorem selectIndex_some (g : Globals) {key : String} (h : key ∈ keys) :
    ∃ index, selectIndex g key = some index := by
  simp only [keys, List.mem_cons, List.mem_singleton, List.mem_nil_iff, or_false] at h
  rcases h with rfl | rfl | rfl | rfl
  · exact ⟨g.monthIndex, rfl⟩
  · exact ⟨g.numIndex, rfl⟩
  · exact ⟨g.yearIndex, rfl⟩
  · exact ⟨g.titleIndex, rfl⟩

theorem queryBounds_none (n : Nat) (S : List comicData) (index : List Int)
    (key inequality value : String) (h : inequality ∉ operands) :
    queryBounds n S index key inequality value = .ok none := by
  unfold queryBounds
  split
  · exact absurd (by decide : "<=" ∈ operands) h
  · exact absurd (by decide : ">=" ∈ operands) h
  · exact absurd (by decide : "=" ∈ operands) h
  · rfl

theorem loadIndexLoop_ok :
    ∀ (tokens : List String) (vs pre mid post : List Int),
      List.Forall₂ (fun t v => Atoi t = .ok v) tokens vs → mid.length = vs.length →
      loadIndexLoop tokens pre.length (pre ++ mid ++ post) = .ok (pre ++ vs ++ post) := by
  intro tokens
  induction tokens with
  | nil =>
    intro vs pre mid post hf hmid
    cases hf
    have : mid = [] := List.length_eq_zero.1 hmid
    subst this
    rfl
  | cons t tokens ih =>
    intro vs pre mid post hf hmid
    cases hf with
    | cons htv hrest =>
      rename_i v vs
      cases mid with
      | nil => simp at hmid
      | cons m mid =>
        simp only [loadIndexLoop, htv]
        rw [if_pos (by simp)]
        have hset : (pre ++ m :: mid ++ post).set pre.length v = (pre ++ [v]) ++ mid ++ post := by
          simp [List.set_append_right]
        rw [hset]
        have := ih vs (pre ++ [v]) mid post hrest (by simpa using hmid)
        simp only [List.length_append, List.length_singleton] at this
        rw [this]
        simp

theorem loadIndexLoop_invalid :
    ∀ (tokens : List String) (k : Nat) (buf : List Int),
      (∃ t ∈ tokens, ∃ e, Atoi t = .error e) → ∃ e, loadIndexLoop tokens k buf = .error e := by
  intro tokens
  induction tokens with
  | nil => intro k buf h; obtain ⟨t, ht, _⟩ := h; simp at ht
  | cons t tokens ih =>
    intro k buf h
    cases hA : Atoi t with
    | error e => exact ⟨.atoi t e, by simp only [loadIndexLoop, hA]⟩
    | ok v =>
      simp only [loadIndexLoop, hA]
      by_cases hk : k < buf.length
      · rw [if_pos hk]
        apply ih
        obtain ⟨u, hu, e, he⟩ := h
        simp only [List.mem_cons] at hu
        rcases hu with rfl | hu
        · rw [hA] at he; cases he
        · exact ⟨u, hu, e, he⟩
      · rw [if_neg hk]
        exact ⟨_, rfl⟩

theorem loadIndexLoop_overflow :
    ∀ (tokens : List String) (k : Nat) (buf : List Int),
      k ≤ buf.length → buf.length < k + tokens.length →
      ∃ e, loadIndexLoop tokens k buf = .error e := by
  intro tokens
  induction tokens with
  | nil => intro k buf hk h; simp at h; omega
  | cons t tokens ih =>
    intro k buf _ h
    cases hA : Atoi t with
    | error e => exact ⟨.atoi t e, by simp only [loadIndexLoop, hA]⟩
    | ok v =>
      simp only [loadIndexLoop, hA]
      by_cases hk : k < buf.length
      · rw [if_pos hk]
        apply ih
        · simp only [List.length_set]; omega
        · simp only [List.length_set, List.length_cons] at h ⊢
          omega
      · rw [if_neg hk]
        exact ⟨_, rfl⟩

theorem downloadComicsData_length (fetch : Nat → comicData) (n : Nat) :
    (downloadComicsData fetch n).length = n := by
  simp [downloadComicsData]

theorem downloadComicsData_getElem? (fetch : Nat → comicData) (n k : Nat) (r : comicData)
    (h : (downloadComicsData fetch n)[k]? = some r) :
    r = if k + 1 = 404 then comicData.zero else fetch (k + 1) := by
  simp only [downloadComicsData, List.getElem?_map, Option.map_eq_some'] at h
  obtain ⟨a, ha, hr⟩ := h
  have hak := (List.getElem?_eq_some_iff.1 ha).2
  simp only [List.getElem_range] at hak
  subst hak
  exact hr.symm

/-- On the num key: position 403 of the written index. -/
theorem createIndex_num_hole (alg : Nat → SortProg) (S : List comicData)
    (h404 : 404 ≤ S.length) (hhole : ∀ r, S[403]? = some r → r.Num = 0)
    (hnum : ∀ (i : Nat) r, i ≠ 403 → S[i]? = some r → r.Num = (i : Int) + 1)
    (hsort : SortSpec alg S "num") :
    ∃ r, createIndex alg S.length S "num" = .ok r ∧ r.positions[0]? = some 403 ∧
      r.positions ≠ initialToSort S.length := by
  obtain ⟨c, hc, hlock, hsorted⟩ := createIndexSort_spec alg S "num" (by decide) hsort
  have hlen := lockstep_length_toSort hlock
  have h0 : 0 < c.ToSort.length := by omega
  have hfirst : c.ToSort[0]? = some 403 := by
    obtain ⟨u, hu, hue, hsu⟩ := lockstep_getElem hlock 0 h0
    by_cases hu403 : u = 403
    · subst hu403
      rw [List.getElem?_eq_getElem h0, hue]
      rfl
    · exfalso
      have hmem : (403 : Int) ∈ c.ToSort := by
        rw [hlock.2.mem_iff]
        simp only [initialToSort, List.mem_map, List.mem_range]
        exact ⟨403, by omega, rfl⟩
      obtain ⟨j, hj, hje⟩ := List.getElem_of_mem hmem
      obtain ⟨v, hv, hve, hsv⟩ := lockstep_getElem hlock j hj
      have hv403 : v = 403 := by
        rw [hje] at hve
        have : ((403 : Nat) : Int) = (v : Int) := hve
        exact (Int.ofNat.inj this).symm
      subst hv403
      have hj0 : 0 < j := by
        rcases Nat.eq_zero_or_pos j with h | h
        · subst h
          rw [hue] at hje
          have : ((u : Nat) : Int) = ((403 : Nat) : Int) := hje
          exact absurd (Int.ofNat.inj this) hu403
        · exact h
      rw [List.getElem?_eq_getElem hu] at hsu
      rw [List.getElem?_eq_getElem hv] at hsv
      have hfalse := hsorted j (by omega) 0 hj0 S[u] S[403] hsu hsv
      have h1 := hhole S[403] (List.getElem?_eq_getElem hv)
      have h2 := hnum u S[u] hu403 (List.getElem?_eq_getElem hu)
      simp only [lessRecord, h1, h2, decide_eq_false_iff_not, not_lt] at hfalse
      omega
  refine ⟨_, createIndex_of_sort hc, hfirst, ?_⟩
  show c.ToSort ≠ initialToSort S.length
  intro heq
  rw [heq] at hfirst
  have : (initialToSort S.length)[0]? = some 0 := by
    simp only [initialToSort, List.getElem?_map]
    rw [List.getElem?_range (by omega)]
    rfl
  rw [this] at hfirst
  cases hfirst

theorem holeFirst_perm (n : Nat) (h : 404 ≤ n) : (holeFirst n).Perm (initialToSort n) := by
  unfold holeFirst initialToSort
  have h1 : (403 :: (List.range n).filter fun k => k ≠ 403).Perm (List.range n) := by
    have hmem : 403 ∈ List.range n := List.mem_range.2 (by omega)
    have := (List.perm_cons_erase hmem).symm
    rw [(List.nodup_range n).erase_eq_filter] at this
    refine List.Perm.trans ?_ this
    apply List.Perm.cons
    apply List.Perm.of_eq
    apply List.filter_congr
    intro x _
    by_cases hx : x = 403 <;> simp [hx]
  have := h1.map Int.ofNat
  simpa using this

theorem numAt_ofNat (S : List comicData) (hhole : ∀ r, S[403]? = some r → r.Num = 0)
    (hnum : ∀ (i : Nat) r, i ≠ 403 → S[i]? = some r → r.Num = (i : Int) + 1) (k : Nat)
    (hk : k < S.length) : numAt S (Int.ofNat k) = if k = 403 then 0 else (k : Int) + 1 := by
  unfold numAt
  rw [sliceGet?_ofNat, List.getElem?_eq_getElem hk]
  simp only
  split
  · rename_i h
    subst h
    exact hhole _ (List.getElem?_eq_getElem hk)
  · rename_i h
    exact hnum k _ h (List.getElem?_eq_getElem hk)

theorem holeFirst_sorted (S : List comicData) (h404 : 404 ≤ S.length)
    (hhole : ∀ r, S[403]? = some r → r.Num = 0)
    (hnum : ∀ (i : Nat) r, i ≠ 403 → S[i]? = some r → r.Num = (i : Int) + 1) :
    (holeFirst S.length).Pairwise (fun p q => numAt S p < numAt S q) := by
  unfold holeFirst
  rw [List.pairwise_cons]
  constructor
  · intro q hq
    simp only [List.mem_map, List.mem_filter, List.mem_range, decide_eq_true_eq] at hq
    obtain ⟨k, ⟨hk, hk403⟩, rfl⟩ := hq
    have h1 := numAt_ofNat S hhole hnum 403 (by omega)
    have h2 := numAt_ofNat S hhole hnum k hk
    simp only [if_true] at h1
    rw [if_neg hk403] at h2
    have h3 : numAt S 403 = 0 := h1
    rw [h3, h2]
    omega
  · rw [List.pairwise_map]
    have hp : ((List.range S.length).filter fun k => k ≠ 403).Pairwise (· < ·) :=
      (List.pairwise_lt_range S.length).filter _
    have hm : ∀ k ∈ (List.range S.length).filter fun k => k ≠ 403,
        k < S.length ∧ k ≠ 403 := by
      intro k hk
      simpa only [List.mem_filter, List.mem_range, decide_eq_true_eq] using hk
    refine List.Pairwise.imp_of_mem ?_ hp
    intro a b ha hb hlt
    obtain ⟨ha1, ha2⟩ := hm a ha
    obtain ⟨hb1, hb2⟩ := hm b hb
    rw [numAt_ofNat S hhole hnum a ha1, numAt_ofNat S hhole hnum b hb1, if_neg ha2, if_neg hb2]
    omega

theorem positions_sorted_numAt (S : List comicData)
    (hhole : ∀ r, S[403]? = some r → r.Num = 0)
    (hnum : ∀ (i : Nat) r, i ≠ 403 → S[i]? = some r → r.Num = (i : Int) + 1)
    (c : coupledSlice) (hlock : Lockstep S c)
    (hsorted : ∀ j, j < S.length → ∀ i, i < j → ∀ a b, c.SortBy[i]? = some a →
      c.SortBy[j]? = some b → lessRecord "num" b a = false) :
    c.ToSort.Pairwise (fun p q => numAt S p < numAt S q) := by
  rw [List.pairwise_iff_getElem]
  intro i j hi hj hij
  obtain ⟨u, hu, hue, hsu⟩ := lockstep_getElem hlock i hi
  obtain ⟨v, hv, hve, hsv⟩ := lockstep_getElem hlock j hj
  have hjS : j < S.length := by rw [← lockstep_length_toSort hlock]; exact hj
  rw [List.getElem?_eq_getElem hu] at hsu
  rw [List.getElem?_eq_getElem hv] at hsv
  have hfalse := hsorted j hjS i hij S[u] S[v] hsu hsv
  simp only [lessRecord, decide_eq_false_iff_not, not_lt] at hfalse
  have huv : u ≠ v := by
    intro h
    subst h
    have := (lockstep_nodup hlock).getElem_inj_iff.1 (hue.trans hve.symm)
    omega
  have h1 := numAt_ofNat S hhole hnum u hu
  have h2 := numAt_ofNat S hhole hnum v hv
  have e1 : numAt S (Int.ofNat u) = S[u].Num := by
    simp only [numAt, sliceGet?_ofNat, List.getElem?_eq_getElem hu]
  have e2 : numAt S (Int.ofNat v) = S[v].Num := by
    simp only [numAt, sliceGet?_ofNat, List.getElem?_eq_getElem hv]
  rw [hue, hve]
  rw [e1] at h1
  rw [e2] at h2
  rw [e1, e2]
  rw [h1, h2] at hfalse ⊢
  split <;> split <;> rename_i ha hb
  · omega
  · omega
  · rw [if_neg ha, if_pos hb] at hfalse
    omega
  · rw [if_neg ha, if_neg hb] at hfalse
    omega

/-- On a store whose record at position 403 has the number 0 and whose record at every other
position `i` has the number `i + 1`, the num index is `403, 0, 1, ..., 402, 404, ...`. -/
theorem createIndex_num_holeFirst (alg : Nat → SortProg) (S : List comicData)
    (h404 : 404 ≤ S.length) (hhole : ∀ r, S[403]? = some r → r.Num = 0)
    (hnum : ∀ (i : Nat) r, i ≠ 403 → S[i]? = some r → r.Num = (i : Int) + 1)
    (hsort : SortSpec alg S "num") :
    ∃ r, createIndex alg S.length S "num" = .ok r ∧ r.positions = holeFirst S.length := by
  obtain ⟨c, hc, hlock, hsorted⟩ := createIndexSort_spec alg S "num" (by decide) hsort
  refine ⟨_, createIndex_of_sort hc, ?_⟩
  show c.ToSort = holeFirst S.length
  haveI : IsAntisymm Int (fun p q => numAt S p < numAt S q) :=
    ⟨fun a b h1 h2 => absurd h1 (lt_asymm h2)⟩
  exact List.eq_of_perm_of_sorted (hlock.2.trans (holeFirst_perm S.length h404).symm)
    (positions_sorted_numAt S hhole hnum c hlock hsorted)
    (holeFirst_sorted S h404 hhole hnum)

theorem recordAt_mem {S : List comicData} {index : List Int} {i : Nat} {r : comicData}
    (h : recordAt S index i = .ok r) : r ∈ S := by
  unfold recordAt sliceAt at h
  split at h
  · cases h
  · rename_i p hp
    unfold sliceGet sliceGet? at h
    split at h
    · rename_i a ha
      injection h with h
      subst h
      split at ha
      · cases ha
      · obtain ⟨hlt, heq⟩ := List.getElem?_eq_some_iff.1 ha
        rw [← heq]
        exact List.getElem_mem hlt
    · cases h

theorem perm_nodup {n : Nat} {index : List Int} (hperm : index.Perm (initialToSort n)) :
    index.Nodup := by
  rw [hperm.nodup_iff]
  exact (List.nodup_range _).map (fun a b hab => Int.ofNat.inj hab)

theorem perm_recordAt_pos {S : List comicData} {index : List Int}
    (hperm : index.Perm (initialToSort S.length)) (i : Nat) (hi : i < index.length) :
    ∃ q, ∃ hq : q < S.length, index[i] = Int.ofNat q ∧ recordAt S index i = .ok S[q] := by
  have hmem : index[i] ∈ initialToSort S.length := (hperm.mem_iff).1 (List.getElem_mem hi)
  simp only [initialToSort, List.mem_map, List.mem_range] at hmem
  obtain ⟨k, hk, hke⟩ := hmem
  refine ⟨k, hk, hke.symm, ?_⟩
  simp only [recordAt, sliceAt, List.getElem?_eq_getElem hi, sliceGet, ← hke, sliceGet?_ofNat,
    List.getElem?_eq_getElem hk]

theorem perm_position {S : List comicData} {index : List Int}
    (hperm : index.Perm (initialToSort S.length)) (p : Nat) (hp : p < S.length) :
    ∃ i, ∃ hi : i < index.length, index[i] = Int.ofNat p := by
  have hmem : Int.ofNat p ∈ index := by
    rw [hperm.mem_iff]
    simp only [initialToSort, List.mem_map, List.mem_range]
    exact ⟨p, hp, rfl⟩
  obtain ⟨i, hi, hie⟩ := List.getElem_of_mem hmem
  exact ⟨i, hi, hie⟩

/-- The search of a test that no record of the store passes ends at `n`; the search of a test
that every record passes ends at `0`. -/
theorem search_probe_const {n : Nat} {S : List comicData} {index : List Int}
    (hread : ReadableIndex n S index) (test : comicData → Bool) (b : Bool)
    (hall : ∀ r ∈ S, test r = b) :
    Search n (probe S index test) = .ok (if b then 0 else n) := by
  have hf : ∀ i, i < n → probe S index test i = .ok ((fun _ => b) i) := by
    intro i hi
    obtain ⟨r, hr⟩ := readable_recordAt hread i hi
    simp only [probe, hr, hall r (recordAt_mem hr)]
  obtain ⟨L, hL, hLn, hlo, hhi⟩ := Search_spec _ (fun _ => b) n hf (fun _ _ _ _ h => h)
  rw [hL]
  cases b with
  | true =>
    simp only [if_true]
    rcases Nat.eq_zero_or_pos L with h | h
    · rw [h]
    · have := hlo 0 h
      cases this
  | false =>
    simp only [Bool.false_eq_true, if_false]
    rcases Nat.lt_or_ge L n with h | h
    · have := hhi L (Nat.le_refl L) h
      cases this
    · have : L = n := by omega
      rw [this]

theorem fieldBelow_not_ge {key value : String} {r : comicData}
    (h : fieldBelow key value r = true) : satisfies key ">=" value r = false := by
  unfold fieldBelow at h
  split at h
  · simp only [satisfies, strGe, h, Bool.not_true]
  · split at h
    · cases h
    · rename_i v hv
      simp only [decide_eq_true_eq] at h
      simp only [satisfies, hv, decide_eq_false_iff_not, not_le, ge_iff_le]
      exact h
  · simp only [satisfies, strGe, h, Bool.not_true]
  · simp only [satisfies, strGe, h, Bool.not_true]
  · cases h

theorem swapAll_lockstep (S : List comicData) :
    ∀ (swaps : List (Nat × Nat)) (c : coupledSlice), Lockstep S c →
      (∀ s ∈ swaps, s.1 < S.length ∧ s.2 < S.length) →
      ∃ d, swapAll c swaps = .ok d ∧ Lockstep S d := by
  intro swaps
  induction swaps with
  | nil => intro c h _; exact ⟨c, rfl, h⟩
  | cons s swaps ih =>
    intro c h hin
    obtain ⟨i, j⟩ := s
    have hij := hin (i, j) (by simp)
    obtain ⟨d, hd, _, _, _⟩ := swap_spec c S.length i j (lockstep_length_sortBy h)
      (lockstep_length_toSort h) hij.1 hij.2
    obtain ⟨e, he, hlock⟩ := ih d (lockstep_swap h hd) (fun t ht => hin t (by simp [ht]))
    exact ⟨e, by simp only [swapAll, hd, he], hlock⟩

theorem lockstep_less {S : List comicData} {c : coupledSlice} (h : Lockstep S c)
    {key : String} {data : Interface coupledSlice} (hd : interfaceOf key = some data)
    (i j : Nat) (a b : comicData) (ha : recordAt S c.ToSort i = .ok a)
    (hb : recordAt S c.ToSort j = .ok b) : data.Less c i j = .ok (lessRecord key a b) := by
  have hi : i < S.length := by
    have := recordAt_lt ha
    rwa [lockstep_length_toSort h] at this
  have hj : j < S.length := by
    have := recordAt_lt hb
    rwa [lockstep_length_toSort h] at this
  obtain ⟨a2, ha2, hra⟩ := lockstep_recordAt h i hi
  obtain ⟨b2, hb2, hrb⟩ := lockstep_recordAt h j hj
  rw [ha] at hra
  rw [hb] at hrb
  injection hra with hra
  injection hrb with hrb
  subst hra hrb
  exact interfaceOf_less hd c i j a b ha2 hb2

theorem readable_of_range {S : List comicData} {index : List Int}
    (hlen : index.length = S.length) (hrange : ∀ p ∈ index, 0 ≤ p ∧ p < S.length) :
    ReadableIndex S.length S index := by
  intro i hi
  have hi2 : i < index.length := by omega
  obtain ⟨h0, h1⟩ := hrange index[i] (List.getElem_mem hi2)
  have hnat : index[i].toNat < S.length := by omega
  have hneg : ¬ index[i] < 0 := by omega
  simp only [recordAt, sliceAt, List.getElem?_eq_getElem hi2, sliceGet, sliceGet?, hneg,
    if_false, List.getElem?_eq_getElem hnat]
  rfl

theorem queryBounds_some {n : Nat} {S : List comicData} {index : List Int}
    (h : ReadableIndex n S index) (key inequality value : String)
    (hop : inequality ∈ operands) (hparse : key = "num" → ∃ v, Atoi value = .ok v) :
    ∃ l r, queryBounds n S index key inequality value = .ok (some (l, r)) ∧ l ≤ n ∧ r ≤ n := by
  simp only [operands, List.mem_cons, List.mem_singleton, List.mem_nil_iff, or_false] at hop
  rcases hop with rfl | rfl | rfl
  · obtain ⟨b, hb, hbn⟩ := findIndex_total h key ">=" value true hparse
    exact ⟨b, n, by simp only [queryBounds, hb], hbn, Nat.le_refl n⟩
  · obtain ⟨b, hb, hbn⟩ := findIndex_total h key "<=" value false hparse
    exact ⟨0, b, by simp only [queryBounds, hb], Nat.zero_le n, hbn⟩
  · obtain ⟨b, hb, hbn⟩ := findIndex_total h key "=" value false hparse
    obtain ⟨c, hc, hcn⟩ := findIndex_total h key "=" value true hparse
    exact ⟨c, b, by simp only [queryBounds, hb, hc], hcn, hbn⟩

theorem searchLoop_guard (f : Nat → Except Panic Bool) (n : Nat) :
    ∀ (fuel i j : Nat) (h : j - i ≤ fuel), j ≤ n →
      searchLoop f fuel i j h
        = searchLoop (fun k => if k < n then f k else .error .indexOutOfRange) fuel i j h := by
  intro fuel
  induction fuel with
  | zero => intro i j h _; rfl
  | succ fuel ih =>
    intro i j h hjn
    unfold searchLoop
    by_cases hlt : i < j
    · have hm : (i + j) / 2 < n := by omega
      simp only [hlt, if_true, hm]
      cases f ((i + j) / 2) with
      | error e => rfl
      | ok b =>
        cases b
        · exact ih _ _ _ hjn
        · exact ih _ _ _ (by omega)
    · simp only [hlt, if_false]

/-- The library routine `sort.Search(n, f)` calls `f` at places below `n` only: it returns the
same when every other place is made to panic. -/
theorem Search_guard (f : Nat → Except Panic Bool) (n : Nat) :
    Search n f = Search n (fun k => if k < n then f k else .error .indexOutOfRange) := by
  unfold Search
  exact searchLoop_guard f n n 0 n (by omega) (Nat.le_refl n)

/-! ## The claims -/

/-- C1. Range exactness: for every store, each of the four keys, every index that is a
permutation of the store positions and whose resolved records are non-decreasing in the field of
the key, and every value (an integer text when the key is `num`): the bounds computed for `>=`
are `[L, N)`, for `<=` are `[0, U)` and for `=` are `[L, U)`, where `L` is the first place
whose record has `field >= value` and `U` the first place whose record has `field > value` (`N`
if there is none); a place lies in the returned range exactly when its record satisfies the
query. -/
theorem queryBounds_exact (S : List comicData) (index : List Int) (key value : String)
    (hkey : key ∈ keys) (hperm : index.Perm (initialToSort S.length))
    (hsorted : IndexSorted key S index)
    (hparse : key = "num" → ∃ v, Atoi value = .ok v) :
    ∃ L U, L ≤ S.length ∧ U ≤ S.length ∧
      queryBounds S.length S index key ">=" value = .ok (some (L, S.length)) ∧
      queryBounds S.length S index key "<=" value = .ok (some (0, U)) ∧
      queryBounds S.length S index key "=" value = .ok (some (L, U)) ∧
      ∀ i r, recordAt S index i = .ok r →
        (L ≤ i ↔ satisfies key ">=" value r = true) ∧
        (U ≤ i ↔ satisfies key ">" value r = true) ∧
        ((L ≤ i ∧ i < S.length) ↔ satisfies key ">=" value r = true) ∧
        ((0 ≤ i ∧ i < U) ↔ satisfies key "<=" value r = true) ∧
        ((L ≤ i ∧ i < U) ↔ satisfies key "=" value r = true) := by
  obtain ⟨L, hL, hLn, hLs⟩ := search_probe_spec S index (satisfies key ">=" value) hperm
    (fun i j a b hij ha hb => (satisfies_mono hkey hparse (hsorted i j a b hij ha hb)).1)
  obtain ⟨U, hU, hUn, hUs⟩ := search_probe_spec S index (satisfies key ">" value) hperm
    (fun i j a b hij ha hb => (satisfies_mono hkey hparse (hsorted i j a b hij ha hb)).2)
  refine ⟨L, U, hLn, hUn, ?_, ?_, ?_, ?_⟩
  · have h := findIndex_eq_search S.length S index key ">=" value hkey hparse
    simp only [queryBounds, h.1, hL]
  · have h := findIndex_eq_search S.length S index key "<=" value hkey hparse
    simp only [queryBounds, h.2, hU]
  · have h := findIndex_eq_search S.length S index key "=" value hkey hparse
    simp only [queryBounds, h.1, h.2, hL, hU]
  · intro i r hr
    have hi := perm_recordAt_lt hperm hr
    have h1 := hLs i r hr
    have h2 := hUs i r hr
    have h3 := satisfies_le_eq hkey hparse r
    refine ⟨h1, h2, ?_, ?_, ?_⟩
    · rw [← h1]
      exact ⟨fun h => h.1, fun h => ⟨h, hi⟩⟩
    · rw [h3.1, ← h2]
      exact ⟨fun h => by omega, fun h => ⟨by omega, by omega⟩⟩
    · rw [h3.2, ← h1, ← h2]
      exact ⟨fun h => ⟨h.1, by omega⟩, fun h => ⟨h.1, by omega⟩⟩

/-- Witness of C1: the sample store with its month index, value `"9"`. -/
theorem queryBounds_exact_witness :
    "month" ∈ keys ∧ [1, 0, 2].Perm (initialToSort sampleStore.length) ∧
    IndexSorted "month" sampleStore [1, 0, 2] ∧
    ∃ L U, L ≤ sampleStore.length ∧ U ≤ sampleStore.length ∧
      queryBounds sampleStore.length sampleStore [1, 0, 2] "month" ">=" "9"
        = .ok (some (L, sampleStore.length)) ∧
      queryBounds sampleStore.length sampleStore [1, 0, 2] "month" "<=" "9" = .ok (some (0, U)) ∧
      queryBounds sampleStore.length sampleStore [1, 0, 2] "month" "=" "9" = .ok (some (L, U)) ∧
      ∀ i r, recordAt sampleStore [1, 0, 2] i = .ok r →
        (L ≤ i ↔ satisfies "month" ">=" "9" r = true) ∧
        (U ≤ i ↔ satisfies "month" ">" "9" r = true) ∧
        ((L ≤ i ∧ i < sampleStore.length) ↔ satisfies "month" ">=" "9" r = true) ∧
        ((0 ≤ i ∧ i < U) ↔ satisfies "month" "<=" "9" r = true) ∧
        ((L ≤ i ∧ i < U) ↔ satisfies "month" "=" "9" r = true) :=
  ⟨by decide, by decide, indexSorted_of_check (by decide),
    queryBounds_exact sampleStore [1, 0, 2] "month" "9" (by decide) (by decide)
      (indexSorted_of_check (by decide)) (fun h => absurd h (by decide))⟩

/-- C2. Sortedness of built indices: for every store and each of the four keys, whenever the
call of `sort.Sort` inside `createIndex` honours its contract, `createIndex` returns, and the
records that the written positions point to in the store as it was before the call are
non-decreasing in the field of the key. -/
theorem createIndex_sorted (alg : Nat → SortProg) (S : List comicData) (key : String)
    (hkey : key ∈ keys) (hsort : SortSpec alg S key) :
    ∃ r, createIndex alg S.length S key = .ok r ∧
      ∀ i j, i < j → j < S.length →
        ∃ a b, recordAt S r.positions i = .ok a ∧ recordAt S r.positions j = .ok b ∧
          fieldLE key a b = true := by
  obtain ⟨c, hc, hlock, hsorted⟩ := createIndexSort_spec alg S key hkey hsort
  refine ⟨_, createIndex_of_sort hc, ?_⟩
  intro i j hij hj
  obtain ⟨a, ha, hra⟩ := lockstep_recordAt hlock i (by omega)
  obtain ⟨b, hb, hrb⟩ := lockstep_recordAt hlock j hj
  exact ⟨a, b, hra, hrb, lessRecord_fieldLE hkey (hsorted j hj i hij a b ha hb)⟩

/-- Witness of C2 on the sample store, key `month`. -/
theorem createIndex_sorted_witness :
    "month" ∈ keys ∧ SortSpec smallSort sampleStore "month" ∧
    ∃ r, createIndex smallSort sampleStore.length sampleStore "month" = .ok r ∧
      ∀ i j, i < j → j < sampleStore.length →
        ∃ a b, recordAt sampleStore r.positions i = .ok a ∧
          recordAt sampleStore r.positions j = .ok b ∧ fieldLE "month" a b = true :=
  ⟨by decide, sortSpec_sample_month,
    createIndex_sorted smallSort sampleStore "month" (by decide) sortSpec_sample_month⟩

/-- C3, refuted as stated: on the sample store the month index lists the record of month
`"10"` before the records of month `"9"`, although 9 is the smaller integer. -/
theorem createIndex_numeric_counterexample :
    ∃ r, createIndex smallSort sampleStore.length sampleStore "month" = .ok r ∧
      r.positions = [1, 0, 2] ∧ ¬ NumericOrder "month" sampleStore r.positions := by
  refine ⟨_, rfl, rfl, ?_⟩
  intro h
  have := h 1 0 (mkComic 1 "9" "2006" "beta") (mkComic 2 "10" "2006" "alpha") 9 10
    (by decide) (by decide) (by decide) (by decide) (by decide)
  omega

/-- C3, amended: for every store and for the keys `month` and `year`, whenever the call of
`sort.Sort` inside `createIndex` honours its contract, the written index orders the records by
the byte-wise order of the text of the field: a record whose text is smaller stands earlier. -/
theorem createIndex_text_order (alg : Nat → SortProg) (S : List comicData) (key : String)
    (hkey : key = "month" ∨ key = "year") (hsort : SortSpec alg S key) :
    ∃ r, createIndex alg S.length S key = .ok r ∧
      ∀ i j a b, recordAt S r.positions i = .ok a → recordAt S r.positions j = .ok b →
        strLt (fieldText key a) (fieldText key b) = true → i < j := by
  have hk : key ∈ keys := by
    rcases hkey with rfl | rfl <;> decide
  obtain ⟨r, hr, hord⟩ := createIndex_less_order alg S key hk hsort
  refine ⟨r, hr, ?_⟩
  intro i j a b hra hrb hlt
  apply hord i j a b hra hrb
  rcases hkey with rfl | rfl
  · simp only [fieldText] at hlt
    have hne : a.Month ≠ b.Month := by
      intro heq
      rw [heq, strLt_irrefl] at hlt
      cases hlt
    simp only [lessRecord, hne, if_false]
    exact hlt
  · simp only [fieldText] at hlt
    have hne : a.Year ≠ b.Year := by
      intro heq
      rw [heq, strLt_irrefl] at hlt
      cases hlt
    simp only [lessRecord, hne, if_false]
    exact hlt

/-- Witness of the amended C3 on the sample store, key `month`. -/
theorem createIndex_text_order_witness :
    SortSpec smallSort sampleStore "month" ∧
    ∃ r, createIndex smallSort sampleStore.length sampleStore "month" = .ok r ∧
      ∀ i j a b, recordAt sampleStore r.positions i = .ok a →
        recordAt sampleStore r.positions j = .ok b →
        strLt (fieldText "month" a) (fieldText "month" b) = true → i < j :=
  ⟨sortSpec_sample_month,
    createIndex_text_order smallSort sampleStore "month" (Or.inl rfl) sortSpec_sample_month⟩

/-- C4. Permutation: for every store and each of the four keys, whenever the call of
`sort.Sort` inside `createIndex` honours its contract, the sequence `createIndex` writes has
exactly as many entries as the store, every entry lies in `[0, N)`, and every position of the
store occurs exactly once. -/
theorem createIndex_permutation (alg : Nat → SortProg) (S : List comicData) (key : String)
    (hkey : key ∈ keys) (hsort : SortSpec alg S key) :
    ∃ r, createIndex alg S.length S key = .ok r ∧ r.positions.length = S.length ∧
      (∀ p ∈ r.positions, 0 ≤ p ∧ p < S.length) ∧
      (∀ k : Nat, k < S.length → r.positions.count (k : Int) = 1) ∧
      r.fileText = writeIndex r.positions := by
  obtain ⟨c, hc, hlock, _⟩ := createIndexSort_spec alg S key hkey hsort
  exact ⟨_, createIndex_of_sort hc, lockstep_length_toSort hlock, lockstep_mem hlock,
    lockstep_count hlock, rfl⟩

/-- Witness of C4 on the sample store, key `title`. -/
theorem createIndex_permutation_witness :
    "title" ∈ keys ∧ SortSpec smallSort sampleStore "title" ∧
    ∃ r, createIndex smallSort sampleStore.length sampleStore "title" = .ok r ∧
      r.positions.length = sampleStore.length ∧
      (∀ p ∈ r.positions, 0 ≤ p ∧ p < sampleStore.length) ∧
      (∀ k : Nat, k < sampleStore.length → r.positions.count (k : Int) = 1) ∧
      r.fileText = writeIndex r.positions :=
  ⟨by decide, sortSpec_sample_title,
    createIndex_permutation smallSort sampleStore "title" (by decide) sortSpec_sample_title⟩

/-- C5. Tie-break by sequence number: for every store and for the keys `month` and `year`,
whenever the call of `sort.Sort` inside `createIndex` honours its contract, of two records with
the same value of the field the one with the smaller `Num` stands earlier in the written
index. -/
theorem createIndex_tiebreak (alg : Nat → SortProg) (S : List comicData) (key : String)
    (hkey : key = "month" ∨ key = "year") (hsort : SortSpec alg S key) :
    ∃ r, createIndex alg S.length S key = .ok r ∧
      ∀ i j a b, recordAt S r.positions i = .ok a → recordAt S r.positions j = .ok b →
        fieldText key a = fieldText key b → a.Num < b.Num → i < j := by
  have hk : key ∈ keys := by
    rcases hkey with rfl | rfl <;> decide
  obtain ⟨r, hr, hord⟩ := createIndex_less_order alg S key hk hsort
  refine ⟨r, hr, ?_⟩
  intro i j a b hra hrb heq hnum
  apply hord i j a b hra hrb
  rcases hkey with rfl | rfl
  · simp only [fieldText] at heq
    simp only [lessRecord, heq, if_true, decide_eq_true_eq]
    exact hnum
  · simp only [fieldText] at heq
    simp only [lessRecord, heq, if_true, decide_eq_true_eq]
    exact hnum

/-- Witness of C5 on the sample store, key `month`. -/
theorem createIndex_tiebreak_witness :
    SortSpec smallSort sampleStore "month" ∧
    ∃ r, createIndex smallSort sampleStore.length sampleStore "month" = .ok r ∧
      ∀ i j a b, recordAt sampleStore r.positions i = .ok a →
        recordAt sampleStore r.positions j = .ok b →
        fieldText "month" a = fieldText "month" b → a.Num < b.Num → i < j :=
  ⟨sortSpec_sample_month,
    createIndex_tiebreak smallSort sampleStore "month" (Or.inl rfl) sortSpec_sample_month⟩

/-- C6, refuted as stated: on the sample store `createIndex("month")` leaves the global
`comicsData` in another order than it found it. -/
theorem createIndex_store_counterexample :
    ∃ r, createIndex smallSort sampleStore.length sampleStore "month" = .ok r ∧
      r.comicsData ≠ sampleStore ∧
      r.comicsData = [mkComic 2 "10" "2006" "alpha", mkComic 1 "9" "2006" "beta",
        mkComic 3 "9" "2007" "gamma"] :=
  ⟨_, rfl, by decide, rfl⟩

/-- C6, amended: for every store and each of the four keys, whenever the call of `sort.Sort`
inside `createIndex` honours its contract, the global `comicsData` after the call holds the
records of the store rearranged in lockstep with the written index: it is a permutation of the
store, and its entry at every place `k` is the record that the written position `k` points to in
the store as it was before the call. -/
theorem createIndex_store_lockstep (alg : Nat → SortProg) (S : List comicData) (key : String)
    (hkey : key ∈ keys) (hsort : SortSpec alg S key) :
    ∃ r, createIndex alg S.length S key = .ok r ∧ r.comicsData.Perm S ∧
      ∀ k, k < S.length → ∃ a, r.comicsData[k]? = some a ∧ recordAt S r.positions k = .ok a := by
  obtain ⟨c, hc, hlock, _⟩ := createIndexSort_spec alg S key hkey hsort
  exact ⟨_, createIndex_of_sort hc, lockstep_perm hlock, lockstep_recordAt hlock⟩

/-- Witness of the amended C6 on the sample store, key `month`. -/
theorem createIndex_store_lockstep_witness :
    "month" ∈ keys ∧ SortSpec smallSort sampleStore "month" ∧
    ∃ r, createIndex smallSort sampleStore.length sampleStore "month" = .ok r ∧
      r.comicsData.Perm sampleStore ∧
      ∀ k, k < sampleStore.length →
        ∃ a, r.comicsData[k]? = some a ∧ recordAt sampleStore r.positions k = .ok a :=
  ⟨by decide, sortSpec_sample_month,
    createIndex_store_lockstep smallSort sampleStore "month" (by decide) sortSpec_sample_month⟩

/-- C7. Persist/load round trip: for every sequence `P` of `N` integers in `[0, N)` (`N` a
slice length, hence below `2^63`), the text `createIndex` writes for `P`, read by `loadIndex`
into a buffer of length `N`, gives the buffer `P`, with no error. -/
theorem loadIndex_writeIndex (P buffer : List Int) (hlen : buffer.length = P.length)
    (hrange : ∀ p ∈ P, 0 ≤ p ∧ p < P.length) (hint : P.length < 2 ^ 63) :
    loadIndex (writeIndex P) buffer = .ok P := by
  have hr : ∀ p ∈ P, 0 ≤ p ∧ p < 2 ^ 63 := by
    intro p hp
    obtain ⟨h0, h1⟩ := hrange p hp
    refine ⟨h0, ?_⟩
    have : (P.length : Int) < 2 ^ 63 := by exact_mod_cast hint
    omega
  unfold loadIndex
  rw [scanLines_writeIndex P hr]
  have := loadIndexLoop_spec P [] buffer [] hlen
    (fun p hp => Atoi_formatInt p (hr p hp).1 (hr p hp).2)
  simpa using this

/-- Witness of C7: the sequence 2, 0, 1 read into a buffer of three zeros. -/
theorem loadIndex_writeIndex_witness :
    [0, 0, 0].length = [2, 0, 1].length ∧ (∀ p ∈ [2, 0, 1], (0 : Int) ≤ p ∧ p < [2, 0, 1].length) ∧
    [2, 0, 1].length < 2 ^ 63 ∧ loadIndex (writeIndex [2, 0, 1]) [0, 0, 0] = .ok [2, 0, 1] :=
  ⟨by decide, by decide, by decide,
    loadIndex_writeIndex [2, 0, 1] [0, 0, 0] (by decide) (by decide) (by decide)⟩

/-- C8. Concrete scenario: on the store of the records 1, 2, 3 of the years 2006, 2006, 2007,
whenever the calls of `sort.Sort` inside `createIndex` honour their contract, `createIndex`
builds a year index and a num index, and with these indices the query `year = 2006` prints
exactly the records 1 and 2, in this order, and the query `num >= 2` exactly the records 2 and
3, in this order. -/
theorem scenario_queries (alg : Nat → SortProg) (hyear : SortSpec alg scenarioStore "year")
    (hnum : SortSpec alg scenarioStore "num") :
    ∃ yearBuild numBuild,
      createIndex alg 3 scenarioStore "year" = .ok yearBuild ∧
      createIndex alg 3 scenarioStore "num" = .ok numBuild ∧
      ∀ monthIndex titleIndex : List Int,
        awaitInputStep
            { numComics := 3, comicsData := scenarioStore, monthIndex := monthIndex,
              numIndex := numBuild.positions, yearIndex := yearBuild.positions,
              titleIndex := titleIndex } "year = 2006"
          = .ok [.record (mkComic 1 "" "2006" ""), .record (mkComic 2 "" "2006" ""),
              .text "> "] ∧
        awaitInputStep
            { numComics := 3, comicsData := scenarioStore, monthIndex := monthIndex,
              numIndex := numBuild.positions, yearIndex := yearBuild.positions,
              titleIndex := titleIndex } "num >= 2"
          = .ok [.record (mkComic 2 "" "2006" ""), .record (mkComic 3 "" "2007" ""),
              .text "> "] := by
  obtain ⟨yb, hyb, hyp⟩ := createIndex_identity alg scenarioStore "year" (by decide) hyear
    (storeAscending_spec (by decide))
  obtain ⟨nb, hnb, hnp⟩ := createIndex_identity alg scenarioStore "num" (by decide) hnum
    (storeAscending_spec (by decide))
  refine ⟨yb, nb, hyb, hnb, ?_⟩
  intro monthIndex titleIndex
  rw [hyp, hnp]
  exact ⟨by with_unfolding_all rfl, by with_unfolding_all rfl⟩

/-- Witness of C8 with the routine that `sort.Sort` runs on three elements. -/
theorem scenario_queries_witness :
    SortSpec smallSort scenarioStore "year" ∧ SortSpec smallSort scenarioStore "num" ∧
    ∃ yearBuild numBuild,
      createIndex smallSort 3 scenarioStore "year" = .ok yearBuild ∧
      createIndex smallSort 3 scenarioStore "num" = .ok numBuild ∧
      ∀ monthIndex titleIndex : List Int,
        awaitInputStep
            { numComics := 3, comicsData := scenarioStore, monthIndex := monthIndex,
              numIndex := numBuild.positions, yearIndex := yearBuild.positions,
              titleIndex := titleIndex } "year = 2006"
          = .ok [.record (mkComic 1 "" "2006" ""), .record (mkComic 2 "" "2006" ""),
              .text "> "] ∧
        awaitInputStep
            { numComics := 3, comicsData := scenarioStore, monthIndex := monthIndex,
              numIndex := numBuild.positions, yearIndex := yearBuild.positions,
              titleIndex := titleIndex } "num >= 2"
          = .ok [.record (mkComic 2 "" "2006" ""), .record (mkComic 3 "" "2007" ""),
              .text "> "] :=
  ⟨sortSpec_scenario_year, sortSpec_scenario_num,
    scenario_queries smallSort sortSpec_scenario_year sortSpec_scenario_num⟩

/-- C9, refuted as stated: the text `abc` is no integer, yet for the keys `month` and `year`
`findIndex` returns a bound for it. -/
theorem findIndex_parse_counterexample :
    Atoi "abc" = .error .invalid ∧
    findIndex 3 sampleStore [1, 0, 2] "month" ">=" "abc" true = .ok 3 ∧
    findIndex 3 sampleStore [0, 1, 2] "year" "<=" "abc" false = .ok 3 := by
  decide

/-- C9, amended: a value that `Atoi` rejects makes `findIndex` panic with that error when the
key is `num`; for the keys `month` and `year` the value is never parsed, and with an index that
resolves at every place `findIndex` returns a bound whatever the value is. -/
theorem findIndex_value_parse (n : Nat) (S : List comicData) (index : List Int)
    (inequality value : String) (isLeftBound : Bool) :
    (∀ err, Atoi value = .error err →
      findIndex n S index "num" inequality value isLeftBound = .error (.atoi value err)) ∧
    (ReadableIndex n S index → ∀ key, key = "month" ∨ key = "year" →
      ∃ b, findIndex n S index key inequality value isLeftBound = .ok b ∧ b ≤ n) := by
  refine ⟨fun err h => findIndex_num_error n S index inequality value isLeftBound err h, ?_⟩
  intro hread key hkey
  apply findIndex_total hread key inequality value isLeftBound
  intro hnum
  rcases hkey with rfl | rfl <;> exact absurd hnum (by decide)

/-- Witness of the amended C9: the value `abc` on the sample store. -/
theorem findIndex_value_parse_witness :
    Atoi "abc" = .error .invalid ∧ ReadableIndex 3 sampleStore [1, 0, 2] ∧
    findIndex 3 sampleStore [0, 1, 2] "num" "=" "abc" true = .error (.atoi "abc" .invalid) ∧
    ∃ b, findIndex 3 sampleStore [1, 0, 2] "month" "=" "abc" true = .ok b ∧ b ≤ 3 :=
  ⟨by decide, by decide,
    (findIndex_value_parse 3 sampleStore [0, 1, 2] "=" "abc" true).1 .invalid (by decide),
    (findIndex_value_parse 3 sampleStore [1, 0, 2] "=" "abc" true).2 (by decide) "month"
      (Or.inl rfl)⟩

/-- C10, refuted as stated: in a session over the sample store, the empty line and a line of
one word end the round with an index-out-of-range panic, and a `num` query whose value is not
an integer ends it with the panic on the error of `Atoi`. -/
theorem awaitInputStep_counterexample :
    sampleGlobals.Loaded ∧
    awaitInputStep sampleGlobals "" = .error .indexOutOfRange ∧
    awaitInputStep sampleGlobals "num" = .error .indexOutOfRange ∧
    awaitInputStep sampleGlobals "num >= abc" = .error (.atoi "abc" .invalid) := by
  decide

/-- C10, amended: in a loaded session, a line of at least two words (key, operand, and the
value made of the remaining words) is processed without a panic, so that the loop goes on,
unless it is a `num` query with one of the three operands whose value `Atoi` rejects: that line
ends the program with the panic on the error of `Atoi`. -/
theorem awaitInputStep_completes (g : Globals) (hg : g.Loaded) (line key inequality : String)
    (words : List String) (hline : Fields line = key :: inequality :: words) :
    ((key = "num" → inequality ∈ operands → ∃ v, Atoi (joinValue words) = .ok v) →
      ∃ out, awaitInputStep g line = .ok out) ∧
    (key = "num" → inequality ∈ operands → ∀ err, Atoi (joinValue words) = .error err →
      awaitInputStep g line = .error (.atoi (joinValue words) err)) := by
  constructor
  · intro hparse
    unfold awaitInputStep
    rw [hline]
    simp only
    cases hsel : selectIndex g key with
    | none => exact ⟨_, rfl⟩
    | some index =>
      have hread := selectIndex_readable hg hsel
      simp only
      rcases queryBounds_total hread key inequality (joinValue words) hparse with hq | hq
      · rw [hq]
        exact ⟨_, rfl⟩
      · obtain ⟨l, r, hq, hl, hr⟩ := hq
        rw [hq]
        simp only
        obtain ⟨out, hout⟩ := printRange_total hread (r - l) l (by omega)
        rw [hout]
        exact ⟨_, rfl⟩
  · intro hkey hop err herr
    subst hkey
    unfold awaitInputStep
    rw [hline]
    simp only [selectIndex, queryBounds_num_error _ _ _ inequality _ hop err herr]

/-- Witness of the amended C10: the lines `month >= 5` and `num = abc` in the session over the
sample store. -/
theorem awaitInputStep_completes_witness :
    sampleGlobals.Loaded ∧ Fields "month >= 5" = ["month", ">=", "5"] ∧
    Fields "num = abc" = ["num", "=", "abc"] ∧
    (∃ out, awaitInputStep sampleGlobals "month >= 5" = .ok out) ∧
    awaitInputStep sampleGlobals "num = abc" = .error (.atoi "abc" .invalid) :=
  ⟨by decide, by decide, by decide,
    (awaitInputStep_completes sampleGlobals (by decide) "month >= 5" "month" ">=" ["5"]
      (by decide)).1 (fun h => absurd h (by decide)),
    (awaitInputStep_completes sampleGlobals (by decide) "num = abc" "num" "=" ["abc"]
      (by decide)).2 rfl (by decide) .invalid (by decide)⟩

/-- C11. Invalid queries are rejected: for every line whose first word is not one of the four
keys, or whose second word is not one of the three operands, the round of `awaitInput` prints
the error message of the invalid key (an invalid key is found first) or of the invalid operand
and the prompt, and nothing else: no record is printed, no index is selected for an invalid
key, and no range is computed for an invalid operand. -/
theorem awaitInputStep_invalid (g : Globals) (line key inequality : String)
    (words : List String) (hline : Fields line = key :: inequality :: words)
    (hbad : key ∉ keys ∨ inequality ∉ operands) :
    (key ∉ keys → selectIndex g key = none ∧
      awaitInputStep g line = .ok [.text "Error: invalid key specified.\n", .text "> "]) ∧
    (key ∈ keys → (∀ n S index value, queryBounds n S index key inequality value = .ok none) ∧
      awaitInputStep g line = .ok [.text "Error: invalid operand specified.\n", .text "> "]) ∧
    ∃ out, awaitInputStep g line = .ok out ∧ ∀ r, Output.record r ∉ out := by
  have h1 : key ∉ keys → selectIndex g key = none ∧
      awaitInputStep g line = .ok [.text "Error: invalid key specified.\n", .text "> "] := by
    intro hk
    refine ⟨selectIndex_none hk, ?_⟩
    unfold awaitInputStep
    rw [hline]
    simp only [selectIndex_none hk]
  have h2 : key ∈ keys →
      (∀ n S index value, queryBounds n S index key inequality value = .ok none) ∧
      awaitInputStep g line = .ok [.text "Error: invalid operand specified.\n", .text "> "] := by
    intro hk
    have hop : inequality ∉ operands := by
      rcases hbad with h | h
      · exact absurd hk h
      · exact h
    refine ⟨fun n S index value => queryBounds_none n S index key inequality value hop, ?_⟩
    obtain ⟨index, hidx⟩ := selectIndex_some g hk
    unfold awaitInputStep
    rw [hline]
    simp only [hidx, queryBounds_none _ _ _ key inequality _ hop]
  refine ⟨h1, h2, ?_⟩
  by_cases hk : key ∈ keys
  · exact ⟨_, (h2 hk).2, by intro r hr; simp at hr⟩
  · exact ⟨_, (h1 hk).2, by intro r hr; simp at hr⟩

/-- Witness of C11: an unknown key and an unknown operand in the session over the sample
store. -/
theorem awaitInputStep_invalid_witness :
    Fields "day = 5" = ["day", "=", "5"] ∧ "day" ∉ keys ∧
    Fields "num > 5" = ["num", ">", "5"] ∧ ">" ∉ operands ∧
    awaitInputStep sampleGlobals "day = 5"
      = .ok [.text "Error: invalid key specified.\n", .text "> "] ∧
    awaitInputStep sampleGlobals "num > 5"
      = .ok [.text "Error: invalid operand specified.\n", .text "> "] :=
  ⟨by decide, by decide, by decide, by decide,
    ((awaitInputStep_invalid sampleGlobals "day = 5" "day" "=" ["5"] (by decide)
      (Or.inl (by decide))).1 (by decide)).2,
    ((awaitInputStep_invalid sampleGlobals "num > 5" "num" ">" ["5"] (by decide)
      (Or.inr (by decide))).2.1 (by decide)).2⟩

/-- C12, refuted as stated: a text of two lines read into a buffer of three slots is loaded
with no error; the third slot keeps what it held. -/
theorem loadIndex_count_counterexample :
    scanLines "1\n0\n" = ["1", "0"] ∧ loadIndex "1\n0\n" [7, 7, 7] = .ok [1, 0, 7] := by
  decide

/-- C12, amended: `loadIndex` panics when a line that the scanner delivers is not an integer
text, and when the scanner delivers more lines than the buffer has slots; when it delivers at
most as many lines as there are slots, all of them integer texts, `loadIndex` returns with no
error, the values in the first slots and the rest of the buffer as it was. -/
theorem loadIndex_rejects (fileText : String) (index : List Int) :
    ((∃ line ∈ scanLines fileText, ∃ e, Atoi line = .error e) →
      ∃ e, loadIndex fileText index = .error e) ∧
    (index.length < (scanLines fileText).length → ∃ e, loadIndex fileText index = .error e) ∧
    (∀ vs, List.Forall₂ (fun line v => Atoi line = .ok v) (scanLines fileText) vs →
      vs.length ≤ index.length → loadIndex fileText index = .ok (vs ++ index.drop vs.length)) := by
  refine ⟨fun h => loadIndexLoop_invalid _ 0 index h, ?_, ?_⟩
  · intro h
    exact loadIndexLoop_overflow _ 0 index (by omega) (by omega)
  · intro vs hf hlen
    have := loadIndexLoop_ok (scanLines fileText) vs [] (index.take vs.length)
      (index.drop vs.length) hf (by simp; omega)
    simpa [loadIndex] using this

/-- Witness of the amended C12: a bad line, one line too many, and one line too few. -/
theorem loadIndex_rejects_witness :
    (∃ e, loadIndex "1\nx\n2\n" [7, 7, 7] = .error e) ∧
    (∃ e, loadIndex "1\n0\n2\n3\n" [7, 7, 7] = .error e) ∧
    loadIndex "1\n0\n" [7, 7, 7] = .ok ([1, 0] ++ [7, 7, 7].drop [1, 0].length) :=
  ⟨(loadIndex_rejects "1\nx\n2\n" [7, 7, 7]).1 ⟨"x", by decide, .invalid, by decide⟩,
    (loadIndex_rejects "1\n0\n2\n3\n" [7, 7, 7]).2.1 (by decide),
    (loadIndex_rejects "1\n0\n" [7, 7, 7]).2.2 [1, 0]
      (List.Forall₂.cons (by decide) (List.Forall₂.cons (by decide) List.Forall₂.nil))
      (by decide)⟩

/-- C13, the code on the store that the build produces: with at least 404 comics, the record of
comic `i` carrying the number `i` and the empty record in the slot of comic 404, whenever the
call of `sort.Sort` inside `createIndex` honours its contract, the num index that `createIndex`
writes is `403, 0, 1, ..., 402, 404, ...`: the empty record has the number 0 and stands first,
so the index is not the identity. -/
theorem numIndex_hole_first (alg : Nat → SortProg) (fetch : Nat → comicData) (k : Nat)
    (hsort : SortSpec alg (downloadComicsData (numbered fetch) (404 + k)) "num") :
    ∃ r, createIndex alg (404 + k) (downloadComicsData (numbered fetch) (404 + k)) "num"
        = .ok r ∧
      r.positions = holeFirst (404 + k) ∧ r.positions[0]? = some 403 ∧
      r.positions ≠ initialToSort (404 + k) := by
  have hlen := downloadComicsData_length (numbered fetch) (404 + k)
  have hhole : ∀ r,
      (downloadComicsData (numbered fetch) (404 + k))[403]? = some r →
        r.Num = 0 := by
    intro r hr
    rw [downloadComicsData_getElem? _ _ _ _ hr]
    rfl
  have hnum : ∀ (i : Nat) r, i ≠ 403 →
      (downloadComicsData (numbered fetch) (404 + k))[i]? = some r →
        r.Num = (i : Int) + 1 := by
    intro i r hi hr
    rw [downloadComicsData_getElem? _ _ _ _ hr, if_neg (by omega)]
    simp [numbered]
  obtain ⟨r, hr, hpos⟩ := createIndex_num_holeFirst alg _ (by omega) hhole hnum hsort
  rw [hlen] at hr hpos
  refine ⟨r, hr, hpos, ?_, ?_⟩
  · rw [hpos]; simp [holeFirst]
  · rw [hpos]
    intro h
    have h0 := congrArg (fun l => l[0]?) h
    simp only [holeFirst, initialToSort, List.getElem?_cons_zero, List.getElem?_map] at h0
    rw [List.getElem?_range (by omega)] at h0
    cases h0

/-- Witness of C13: the store of 404 comics, sorted by the library routine `insertionSort`. -/
theorem numIndex_hole_first_witness :
    SortSpec smallSort
      (downloadComicsData (numbered plainFetch) (404 + 0)) "num" ∧
    ∃ r, createIndex smallSort (404 + 0)
        (downloadComicsData (numbered plainFetch) (404 + 0)) "num"
          = .ok r ∧
      r.positions = holeFirst (404 + 0) ∧ r.positions[0]? = some 403 ∧
      r.positions ≠ initialToSort (404 + 0) :=
  ⟨smallSort_sortSpec _ "num" (by decide),
    numIndex_hole_first smallSort plainFetch 0 (smallSort_sortSpec _ "num" (by decide))⟩

/-- C14. Unique match gives a singleton range: for every store, each of the four keys, every
index that is a permutation of the store positions sorted in the field of the key, and every
value (an integer text when the key is `num`) that the field of exactly one record equals, the
record at position `p`: the bounds of the `=` query are `[L, L + 1)`, and the index holds `p`
at place `L`. -/
theorem queryBounds_unique (S : List comicData) (index : List Int) (key value : String)
    (hkey : key ∈ keys) (hperm : index.Perm (initialToSort S.length))
    (hsorted : IndexSorted key S index)
    (hparse : key = "num" → ∃ v, Atoi value = .ok v)
    (p : Nat) (r : comicData) (hp : S[p]? = some r)
    (hmatch : satisfies key "=" value r = true)
    (hunique : ∀ q s, q ≠ p → S[q]? = some s → satisfies key "=" value s = false) :
    ∃ L U, queryBounds S.length S index key "=" value = .ok (some (L, U)) ∧
      U - L = 1 ∧ U = L + 1 ∧ index[L]? = some (p : Int) ∧ recordAt S index L = .ok r := by
  obtain ⟨L, U, _, hUn, _, _, hq, hiff⟩ :=
    queryBounds_exact S index key value hkey hperm hsorted hparse
  have hlen : index.length = S.length := by
    have := hperm.length_eq
    simpa [initialToSort] using this
  obtain ⟨hpS, hpr⟩ := List.getElem?_eq_some_iff.1 hp
  obtain ⟨i0, hi0, hi0e⟩ := perm_position hperm p hpS
  obtain ⟨q0, hq0, hq0e, hrec0⟩ := perm_recordAt_pos hperm i0 hi0
  have hq0p : q0 = p := by
    rw [hi0e] at hq0e
    exact (Int.ofNat.inj hq0e).symm
  subst hq0p
  rw [hpr] at hrec0
  have hin0 : L ≤ i0 ∧ i0 < U := ((hiff i0 r hrec0).2.2.2.2).2 hmatch
  have honly : ∀ i, L ≤ i → i < U → i = i0 := by
    intro i hLi hiU
    have hi : i < index.length := by omega
    obtain ⟨q, hq, hqe, hrec⟩ := perm_recordAt_pos hperm i hi
    have hsat := ((hiff i S[q] hrec).2.2.2.2).1 ⟨hLi, hiU⟩
    have hqp : q = q0 := by
      by_contra hne
      have := hunique q S[q] hne (List.getElem?_eq_getElem hq)
      rw [this] at hsat
      cases hsat
    subst hqp
    exact (perm_nodup hperm).getElem_inj_iff.1 (hqe.trans hi0e.symm)
  have hL : L = i0 := honly L (Nat.le_refl L) (by omega)
  have hU : U - 1 = i0 := honly (U - 1) (by omega) (by omega)
  refine ⟨L, U, hq, by omega, by omega, ?_, ?_⟩
  · rw [hL, List.getElem?_eq_getElem hi0, hi0e]
    rfl
  · rw [hL]
    exact hrec0

/-- Witness of C14: the month `"10"` in the sample store, held by the record at position 1
alone. -/
theorem queryBounds_unique_witness :
    "month" ∈ keys ∧ [1, 0, 2].Perm (initialToSort sampleStore.length) ∧
    IndexSorted "month" sampleStore [1, 0, 2] ∧
    ∃ L U, queryBounds sampleStore.length sampleStore [1, 0, 2] "month" "=" "10"
        = .ok (some (L, U)) ∧
      U - L = 1 ∧ U = L + 1 ∧ ([1, 0, 2] : List Int)[L]? = some ((1 : Nat) : Int) ∧
      recordAt sampleStore [1, 0, 2] L = .ok (mkComic 2 "10" "2006" "alpha") :=
  ⟨by decide, by decide, indexSorted_of_check (by decide),
    queryBounds_unique sampleStore [1, 0, 2] "month" "10" (by decide) (by decide)
      (indexSorted_of_check (by decide)) (fun h => absurd h (by decide)) 1
      (mkComic 2 "10" "2006" "alpha") (by decide) (by decide)
      (by
        intro q s hq hs
        have hlt : q < sampleStore.length := (List.getElem?_eq_some_iff.1 hs).1
        have hq3 : q < 3 := hlt
        interval_cases q
        · cases hs; decide
        · exact absurd rfl hq
        · cases hs; decide)⟩

/-- C15, refuted as stated: in the sample store the months are 9, 10, 9 and the value 13 is
the greater integer, yet the query `month >= 13` over the month index has the bounds `[1, 3)`:
as texts, `"9"` is not below `"13"`. -/
theorem queryBounds_above_counterexample :
    sampleStore.map (fun r => Atoi r.Month) = [.ok 9, .ok 10, .ok 9] ∧ Atoi "13" = .ok 13 ∧
    [1, 0, 2].Perm (initialToSort 3) ∧ indexSortedCheck "month" sampleStore [1, 0, 2] = true ∧
    queryBounds 3 sampleStore [1, 0, 2] "month" ">=" "13" = .ok (some (1, 3)) := by
  decide

/-- C15, amended: for every store of `N` records, each of the four keys, every index that
resolves at every place, and every value (an integer text when the key is `num`) that the field
of every record is strictly below in the ordering of the comparators, integers for `num` and
byte-wise text for `month`, `year` and `title`: the `>=` query has the bounds `[N, N)`. -/
theorem queryBounds_above (S : List comicData) (index : List Int) (key value : String)
    (hkey : key ∈ keys) (hread : ReadableIndex S.length S index)
    (hparse : key = "num" → ∃ v, Atoi value = .ok v)
    (habove : ∀ r ∈ S, fieldBelow key value r = true) :
    queryBounds S.length S index key ">=" value = .ok (some (S.length, S.length)) := by
  have h := (findIndex_eq_search S.length S index key ">=" value hkey hparse).1
  have hs := search_probe_const hread (satisfies key ">=" value) false
    (fun r hr => fieldBelow_not_ge (habove r hr))
  simp only [Bool.false_eq_true, if_false] at hs
  simp only [queryBounds, h, hs]

/-- Witness of the amended C15: the value 4 above the numbers 1, 2, 3 of the sample store. -/
theorem queryBounds_above_witness :
    "num" ∈ keys ∧ ReadableIndex sampleStore.length sampleStore [0, 1, 2] ∧
    Atoi "4" = .ok 4 ∧ (∀ r ∈ sampleStore, fieldBelow "num" "4" r = true) ∧
    queryBounds sampleStore.length sampleStore [0, 1, 2] "num" ">=" "4"
      = .ok (some (sampleStore.length, sampleStore.length)) :=
  ⟨by decide, by decide, by decide, by decide,
    queryBounds_above sampleStore [0, 1, 2] "num" "4" (by decide) (by decide)
      (fun _ => ⟨4, by decide⟩) (by decide)⟩

/-- C16. Below the minimum, `<=` is empty: for every store, each of the four keys, every index
that resolves at every place, and every value (an integer text when the key is `num`) that is
strictly below the field of every record in the ordering of the comparators: the `<=` query has
the bounds `[0, 0)`. -/
theorem queryBounds_below (S : List comicData) (index : List Int) (key value : String)
    (hkey : key ∈ keys) (hread : ReadableIndex S.length S index)
    (hparse : key = "num" → ∃ v, Atoi value = .ok v)
    (hbelow : ∀ r ∈ S, satisfies key ">" value r = true) :
    queryBounds S.length S index key "<=" value = .ok (some (0, 0)) := by
  have h := (findIndex_eq_search S.length S index key "<=" value hkey hparse).2
  have hs := search_probe_const hread (satisfies key ">" value) true hbelow
  simp only [if_true] at hs
  simp only [queryBounds, h, hs]

/-- Witness of C16: the value `"1"` below the months `"9"`, `"10"`, `"9"` of the sample
store. -/
theorem queryBounds_below_witness :
    "month" ∈ keys ∧ ReadableIndex sampleStore.length sampleStore [1, 0, 2] ∧
    (∀ r ∈ sampleStore, satisfies "month" ">" "1" r = true) ∧
    queryBounds sampleStore.length sampleStore [1, 0, 2] "month" "<=" "1" = .ok (some (0, 0)) :=
  ⟨by decide, by decide, by decide,
    queryBounds_below sampleStore [1, 0, 2] "month" "1" (by decide) (by decide)
      (fun h => absurd h (by decide)) (by decide)⟩

/-- C17. Lockstep invariant of the coupled sort: starting from `SortBy = S` and `ToSort = [0,
..., N-1]`, every finite sequence of calls `Swap(i, j)` with `i, j < N` goes through, and
after it every entry `SortBy[k]` is the record `S[ToSort[k]]`, `ToSort` is a permutation of
`[0, N)`, and `Less(i, j)` of each of the four types compares the records that `ToSort[i]` and
`ToSort[j]` point to in the original store. -/
theorem swapAll_invariant (S : List comicData) (swaps : List (Nat × Nat))
    (hin : ∀ s ∈ swaps, s.1 < S.length ∧ s.2 < S.length) :
    ∃ c, swapAll (initialSlices S.length S) swaps = .ok c ∧
      (∀ k, k < S.length → ∃ a, c.SortBy[k]? = some a ∧ recordAt S c.ToSort k = .ok a) ∧
      c.ToSort.Perm (initialToSort S.length) ∧
      ∀ key data, interfaceOf key = some data →
        ∀ i j a b, recordAt S c.ToSort i = .ok a → recordAt S c.ToSort j = .ok b →
          data.Less c i j = .ok (lessRecord key a b) := by
  obtain ⟨c, hc, hlock⟩ := swapAll_lockstep S swaps _ (lockstep_initial S) hin
  refine ⟨c, hc, lockstep_recordAt hlock, hlock.2, ?_⟩
  intro key data hd i j a b ha hb
  exact lockstep_less hlock hd i j a b ha hb

/-- Witness of C17: three swaps on the sample store. -/
theorem swapAll_invariant_witness :
    (∀ s ∈ [(0, 2), (1, 2), (2, 2)], s.1 < sampleStore.length ∧ s.2 < sampleStore.length) ∧
    ∃ c, swapAll (initialSlices sampleStore.length sampleStore) [(0, 2), (1, 2), (2, 2)]
        = .ok c ∧
      (∀ k, k < sampleStore.length →
        ∃ a, c.SortBy[k]? = some a ∧ recordAt sampleStore c.ToSort k = .ok a) ∧
      c.ToSort.Perm (initialToSort sampleStore.length) ∧
      ∀ key data, interfaceOf key = some data →
        ∀ i j a b, recordAt sampleStore c.ToSort i = .ok a →
          recordAt sampleStore c.ToSort j = .ok b →
          data.Less c i j = .ok (lessRecord key a b) :=
  ⟨by decide, swapAll_invariant sampleStore [(0, 2), (1, 2), (2, 2)] (by decide)⟩

/-- C18. Bounds are always usable: for every store of `N` records, every index of `N` entries
in `[0, N)`, sorted or not, every key, every value (an integer text when the key is
`num`) and either flag: the binary search calls its test at places below `N` only (it returns
the same when every other place is made to panic), every such place resolves to a record of the
store, and `findIndex` returns a bound in `[0, N]` (a read out of range would be a panic, not a
result; the search is a total function); and for each of the three operands the print loop of
`awaitInput` resolves every place of `[leftBound, rightBound)` and runs through with no
panic. -/
theorem findIndex_usable (S : List comicData) (index : List Int)
    (key inequality value : String) (isLeftBound : Bool)
    (hlen : index.length = S.length) (hrange : ∀ p ∈ index, 0 ≤ p ∧ p < S.length)
    (hparse : key = "num" → ∃ v, Atoi value = .ok v) :
    (∀ test, Search S.length (probe S index test)
      = Search S.length
          (fun k => if k < S.length then probe S index test k else .error .indexOutOfRange)) ∧
    (∀ i, i < S.length → ∃ rec, recordAt S index i = .ok rec) ∧
    (∃ b, findIndex S.length S index key inequality value isLeftBound = .ok b ∧ b ≤ S.length) ∧
    ∀ op, op ∈ operands →
      ∃ l r out, queryBounds S.length S index key op value = .ok (some (l, r)) ∧
        l ≤ S.length ∧ r ≤ S.length ∧
        (∀ i, l ≤ i → i < r → ∃ rec, recordAt S index i = .ok rec) ∧
        printRange S index l (r - l) = .ok out := by
  have hread := readable_of_range hlen hrange
  refine ⟨fun test => Search_guard _ _, readable_recordAt hread,
    findIndex_total hread key inequality value isLeftBound hparse, ?_⟩
  intro op hop
  obtain ⟨l, r, hq, hl, hr⟩ := queryBounds_some hread key op value hop hparse
  obtain ⟨out, hout⟩ := printRange_total hread (r - l) l (by omega)
  exact ⟨l, r, out, hq, hl, hr, fun i _ hi => readable_recordAt hread i (by omega), hout⟩

/-- Witness of C18: an index that is not sorted, over the sample store. -/
theorem findIndex_usable_witness :
    ([2, 2, 0] : List Int).length = sampleStore.length ∧
    (∀ p ∈ ([2, 2, 0] : List Int), 0 ≤ p ∧ p < sampleStore.length) ∧
    (∀ test, Search sampleStore.length (probe sampleStore [2, 2, 0] test)
      = Search sampleStore.length
          (fun k => if k < sampleStore.length then probe sampleStore [2, 2, 0] test k
            else .error .indexOutOfRange)) ∧
    (∀ i, i < sampleStore.length → ∃ rec, recordAt sampleStore [2, 2, 0] i = .ok rec) ∧
    (∃ b, findIndex sampleStore.length sampleStore [2, 2, 0] "title" "=" "beta" true = .ok b ∧
      b ≤ sampleStore.length) ∧
    ∀ op, op ∈ operands →
      ∃ l r out, queryBounds sampleStore.length sampleStore [2, 2, 0] "title" op "beta"
          = .ok (some (l, r)) ∧
        l ≤ sampleStore.length ∧ r ≤ sampleStore.length ∧
        (∀ i, l ≤ i → i < r → ∃ rec, recordAt sampleStore [2, 2, 0] i = .ok rec) ∧
        printRange sampleStore [2, 2, 0] l (r - l) = .ok out :=
  ⟨by decide, by decide,
    findIndex_usable sampleStore [2, 2, 0] "title" "=" "beta" true (by decide) (by decide)
      (fun h => absurd h (by decide))⟩

end Xkcd
